/-
Verification of the discount-optimizer core (`src/lib/optimizer.ts`).

The optimizer is a bounded-knapsack solver: given a list of coupons
(threshold, discount, count) and a cart total, it selects coupon usages
maximizing the total discount subject to the summed thresholds not
exceeding the cart total.  The implementation scales all currency to
integer cents, filters ineligible coupons, short-circuits a trivial
case, reduces the capacity by a common GCD, binary-decomposes bounded
counts into 0/1 pseudo-items, runs a 0/1 knapsack DP with a decision
table, and reconstructs the per-coupon usages.

Modelling notes for the shallow embedding:
* JavaScript floating-point `number` is modelled by exact rationals `ℚ`
  for currency amounts and by `ℕ` for counts and scaled integer amounts
  (the spec's data model declares counts to be positive integers and all
  scaled amounts to be non-negative integers).  `Math.round` on
  non-negative values is `⌊x + 1/2⌋` (JS rounds half towards +∞).
* The `Int32Array` DP table is modelled with `ℤ` values and explicit
  ToInt32 wrapping on every store (`toInt32`, reduction modulo `2^32`
  into `[-2^31, 2^31)`), exactly as JavaScript typed-array stores
  behave; the comparison `includeVal > dp[w]` uses the unwrapped
  `includeVal`, as in the source.  An idealized unbounded table
  (`dpStepN`/`dpRunN`) is used as the specification side and proved to
  coincide with the wrapped one whenever the total scaled discount
  stays below `2^31`.
* The imperative in-place DP (iterating capacities downwards so that
  each item is used at most once) is modelled functionally: one item
  `step` transforms the dp table-as-function; descending iteration means
  every read during the step sees the previous item's table, which is
  exactly what `dpStep` expresses.
* The `keep` decision matrix stores, for item `i` and capacity `w`,
  whether the update fired, i.e. whether `dp_before_i (w - cost) + val >
  dp_before_i w`; the model recomputes that predicate (`keepFlag`) from
  the dp table of the preceding items instead of storing it.
* The JavaScript `Map` (insertion-ordered, updates keep the original
  position) is modelled by an association list with the same semantics
  (`addUsage`), iterated in order by `forEach`.
-/
import Mathlib

namespace DiscountOptimizer

/-! ## Data model (`src/types.ts`) -/

structure Coupon where
  id : String
  threshold : ℚ
  discount : ℚ
  count : ℕ
deriving DecidableEq, Repr

structure CouponUsage where
  couponId : String
  count : ℕ
deriving DecidableEq, Repr

structure OptimizationResult where
  totalOriginal : ℚ
  totalDiscount : ℚ
  finalPrice : ℚ
  solution : List CouponUsage
  warning : Option String := none
deriving DecidableEq, Repr

/-! ## Scaling and arithmetic helpers -/

/-- Maximum array size safety limit (`const MAX_SLOTS = 5_000_000`). -/
def MAX_SLOTS : ℕ := 5000000

/-- JavaScript `Math.round`: round half towards positive infinity. -/
def jsRound (q : ℚ) : ℤ := ⌊q + 1 / 2⌋

/-- Euclid's loop with explicit fuel; the second argument strictly
decreases, so fuel `b` always suffices (structural recursion is used so
that concrete runs reduce inside the kernel). -/
def jsGcdAux : ℕ → ℕ → ℕ → ℕ
  | 0, a, _ => a
  | fuel + 1, a, b => if b = 0 then a else jsGcdAux fuel b (a % b)

/-- `function gcd(a, b) { return b === 0 ? a : gcd(b, a % b); }` -/
def jsGcd (a b : ℕ) : ℕ := jsGcdAux b a b

/-- `Math.round(c.threshold * scale)` with `scale = 100`; the code only
uses it for coupons with `threshold > 0`, where the rounded value is
non-negative, so the `ℕ` truncation is exact. -/
def couponCost (c : Coupon) : ℕ := (jsRound (c.threshold * 100)).toNat

/-- `Math.round(c.discount * scale)`. -/
def couponVal (c : Coupon) : ℕ := (jsRound (c.discount * 100)).toNat

/-- `W_limit = Math.round(totalPrice * scale)`; only used after the
`totalPrice <= 0` early return, where it is non-negative. -/
def wLimit (P : ℚ) : ℕ := (jsRound (P * 100)).toNat

/-- Eligibility filter from the setup loop:
`c.count > 0 && c.threshold > 0 && c.discount > 0 && cost <= W_limit`. -/
def isValid (P : ℚ) (c : Coupon) : Bool :=
  0 < c.count ∧ 0 < c.threshold ∧ 0 < c.discount ∧ couponCost c ≤ wLimit P

/-- `validCoupons`: the coupons surviving the setup loop, in order. -/
def validCoupons (coupons : List Coupon) (P : ℚ) : List Coupon :=
  coupons.filter (isValid P)

/-- `totalPossibleCost += cost * c.count` accumulated over the loop. -/
def totalPossibleCost (coupons : List Coupon) (P : ℚ) : ℕ :=
  ((validCoupons coupons P).map fun c => couponCost c * c.count).sum

/-- `commonFactor`: GCD accumulator seeded with `W` (= `W_limit`) and
folded over the valid coupons' scaled thresholds. -/
def gcdFactor (coupons : List Coupon) (P : ℚ) : ℕ :=
  (validCoupons coupons P).foldl (fun acc c => jsGcd acc (couponCost c)) (wLimit P)

/-- The working capacity after `if (commonFactor > 1) W /= commonFactor`. -/
def reducedW (coupons : List Coupon) (P : ℚ) : ℕ :=
  if 1 < gcdFactor coupons P then wLimit P / gcdFactor coupons P else wLimit P

/-- Per-item cost after `if (commonFactor > 1) cost /= commonFactor`. -/
def itemCost (g : ℕ) (c : Coupon) : ℕ :=
  if 1 < g then couponCost c / g else couponCost c

/-! ## Binary decomposition (item expander) -/

/-- The expansion loop for one coupon, with `count` the remaining count
and the current power written as `2^k` (the code doubles `currentPower`,
starting from 1):
`while (count >= currentPower) { emit currentPower; count -= currentPower;
currentPower *= 2 } if (count > 0) emit count`. -/
def expandAuxF : ℕ → ℕ → ℕ → List ℕ
  | 0, _, _ => []
  | fuel + 1, count, k =>
      if 2 ^ k ≤ count then 2 ^ k :: expandAuxF fuel (count - 2 ^ k) (k + 1)
      else if count = 0 then [] else [count]

def expandAux (count k : ℕ) : List ℕ := expandAuxF (count + 1) count k

/-- Pseudo-item quantities emitted for a coupon with the given count. -/
def expandCounts (count : ℕ) : List ℕ := expandAux count 0

/-- A pseudo-item `{cost, val, originalCouponId, realCount}`. -/
structure Item where
  cost : ℕ
  val : ℕ
  originalCouponId : String
  realCount : ℕ
deriving DecidableEq, Repr

/-- The pseudo-items pushed for one coupon (cost and value scale
linearly with the represented quantity). -/
def couponItems (g : ℕ) (c : Coupon) : List Item :=
  (expandCounts c.count).map fun q =>
    { cost := itemCost g c * q
      val := couponVal c * q
      originalCouponId := c.id
      realCount := q }

/-- The full pseudo-item list, in coupon order. -/
def dpItems (coupons : List Coupon) (P : ℚ) : List Item :=
  (validCoupons coupons P).flatMap (couponItems (gcdFactor coupons P))

/-! ## DP solver and reconstruction -/

/-- JavaScript ToInt32, applied by every store into an `Int32Array`:
reduce modulo `2^32` into `[-2^31, 2^31)`.  (Reads return the stored
32-bit value; the argument is an exact integer here, which matches the
source for all values inside the float64 integer range.) -/
def toInt32 (x : ℤ) : ℤ := (x + 2 ^ 31) % 2 ^ 32 - 2 ^ 31

/-- One item's pass over the `Int32Array` dp table.  The code iterates
`w` from `W` down to `cost`, reading `dp[w - cost]` which (for
`cost > 0`) has not yet been updated in this pass, and for `cost = 0`
reads `dp[w]` itself before its own single update — in both cases the
reads see the table as left by the previous items, which is what this
functional step does.  `includeVal = dp[w - cost] + val` is computed as
an ordinary (unwrapped) number and compared unwrapped against the
stored `dp[w]`; the store `dp[w] = includeVal` then wraps via ToInt32. -/
def dpStep (d : ℕ → ℤ) (it : Item) : ℕ → ℤ := fun w =>
  if it.cost ≤ w then
    if d w < d (w - it.cost) + (it.val : ℤ) then toInt32 (d (w - it.cost) + (it.val : ℤ))
    else d w
  else d w

/-- The dp table (as a function of the capacity) after processing the
items in order, starting from the all-zero table. -/
def dpRun (items : List Item) : ℕ → ℤ :=
  items.foldl dpStep fun _ => 0

/-- Contents of the decision matrix: `keep[i][w] = 1` iff during item
`i`'s pass the update fired at capacity `w`, i.e. `cost ≤ w` and
`dp_before(w - cost) + val > dp_before(w)` (unwrapped `includeVal`
against the stored value), where `dp_before` is the table after the
items preceding `i`. -/
def keepFlag (d : ℕ → ℤ) (it : Item) (w : ℕ) : Bool :=
  it.cost ≤ w ∧ d w < d (w - it.cost) + (it.val : ℤ)

/-- The reconstruction walk (`for (let i = n - 1; i >= 0; i--)`),
expressed on the reversed item list: the head of `revItems` is the last
item, and `rest.reverse` is the list of items preceding it, whose dp
table determines its row of the decision matrix. -/
def walkRev (revItems : List Item) (w : ℕ) : List Item :=
  match revItems with
  | [] => []
  | it :: rest =>
      if keepFlag (dpRun rest.reverse) it w then
        it :: walkRev rest (w - it.cost)
      else
        walkRev rest w

/-- The items taken by the backtrace, in walk order (last item first). -/
def takenItems (items : List Item) (w : ℕ) : List Item :=
  walkRev items.reverse w

/-- `usedCouponsMap.set(id, (usedCouponsMap.get(id) || 0) + realCount)`
on a JavaScript `Map`: an existing key keeps its position and gets its
value bumped; a new key is appended. -/
def addUsage (m : List (String × ℕ)) (id : String) (n : ℕ) : List (String × ℕ) :=
  if m.any fun p => p.1 = id then
    m.map fun p => if p.1 = id then (p.1, p.2 + n) else p
  else
    m ++ [(id, n)]

/-- The usage map accumulated over the walk. -/
def usageMap (taken : List Item) : List (String × ℕ) :=
  taken.foldl (fun m it => addUsage m it.originalCouponId it.realCount) []

/-- The warning text returned when the capacity exceeds `MAX_SLOTS`. -/
def warningText : String :=
  "Total calculated amount is too high for the browser optimizer. Please try reducing the total amount or using larger coupon denominations."

/-! ## The entry point (`calculateOptimization`) -/

/-- Result of the trivial case (`totalPossibleCost <= W_limit`): every
valid coupon is taken at its full count. -/
def trivialResult (coupons : List Coupon) (P : ℚ) : OptimizationResult :=
  let D : ℚ := ((((validCoupons coupons P).map fun c => couponVal c * c.count).sum : ℕ) : ℚ) / 100
  { totalOriginal := P
    totalDiscount := D
    finalPrice := P - D
    solution := (validCoupons coupons P).map fun c => { couponId := c.id, count := c.count }
    warning := none }

/-- Result of the DP branch. -/
def dpResult (coupons : List Coupon) (P : ℚ) : OptimizationResult :=
  let W := reducedW coupons P
  let items := dpItems coupons P
  let D : ℚ := ((dpRun items W : ℤ) : ℚ) / 100
  { totalOriginal := P
    totalDiscount := D
    finalPrice := P - D
    solution := (usageMap (takenItems items W)).map fun p => { couponId := p.1, count := p.2 }
    warning := none }

/-- `calculateOptimization(coupons, totalPrice)` from `optimizer.ts`. -/
def calculateOptimization (coupons : List Coupon) (totalPrice : ℚ) : OptimizationResult :=
  if coupons = [] ∨ totalPrice ≤ 0 then
    { totalOriginal := totalPrice
      totalDiscount := 0
      finalPrice := totalPrice
      solution := []
      warning := none }
  else if totalPossibleCost coupons totalPrice ≤ wLimit totalPrice then
    trivialResult coupons totalPrice
  else if MAX_SLOTS < reducedW coupons totalPrice then
    { totalOriginal := totalPrice
      totalDiscount := 0
      finalPrice := totalPrice
      solution := []
      warning := some warningText }
  else
    dpResult coupons totalPrice

/-! ## Basic lemmas: gcd, rounding, binary decomposition -/

theorem jsGcdAux_eq_gcd : ∀ (fuel a b : ℕ), b ≤ fuel → jsGcdAux fuel a b = Nat.gcd a b := by
  intro fuel
  induction fuel with
  | zero =>
    intro a b hb
    have hb0 : b = 0 := by omega
    subst hb0
    simp [jsGcdAux]
  | succ n ih =>
    intro a b hb
    rw [jsGcdAux]
    split
    · rename_i h; subst h; simp
    · rename_i h
      have hlt : a % b < b := Nat.mod_lt _ (Nat.pos_of_ne_zero h)
      rw [ih b (a % b) (by omega), Nat.gcd_comm a b, Nat.gcd_rec b a, Nat.gcd_comm]

theorem jsGcd_eq_gcd (a b : ℕ) : jsGcd a b = Nat.gcd a b :=
  jsGcdAux_eq_gcd b a b (le_refl b)

/-- Fuel irrelevance: any fuel above the remaining count gives the same
expansion. -/
theorem expandAuxF_congr : ∀ (f1 f2 count k : ℕ), count < f1 → count < f2 →
    expandAuxF f1 count k = expandAuxF f2 count k := by
  intro f1
  induction f1 with
  | zero => intro f2 count k h1 _; omega
  | succ n ih =>
    intro f2 count k h1 h2
    cases f2 with
    | zero => omega
    | succ m =>
      rw [expandAuxF, expandAuxF]
      by_cases h : 2 ^ k ≤ count
      · rw [if_pos h, if_pos h]
        have hp : 0 < 2 ^ k := Nat.pos_pow_of_pos k (by omega)
        rw [ih m (count - 2 ^ k) (k + 1) (by omega) (by omega)]
      · rw [if_neg h, if_neg h]

/-- The recurrence satisfied by the expansion loop. -/
theorem expandAux_unfold (count k : ℕ) :
    expandAux count k =
      if 2 ^ k ≤ count then 2 ^ k :: expandAux (count - 2 ^ k) (k + 1)
      else if count = 0 then [] else [count] := by
  rw [expandAux, expandAuxF]
  by_cases h : 2 ^ k ≤ count
  · rw [if_pos h, if_pos h]
    have hp : 0 < 2 ^ k := Nat.pos_pow_of_pos k (by omega)
    rw [expandAux]
    congr 1
    exact expandAuxF_congr count (count - 2 ^ k + 1) (count - 2 ^ k) (k + 1)
      (by omega) (by omega)
  · rw [if_neg h, if_neg h]

/-- The gcd fold of the setup divides its seed and every folded cost. -/
theorem foldl_jsGcd_dvd (l : List Coupon) (s : ℕ) :
    (l.foldl (fun acc c => jsGcd acc (couponCost c)) s) ∣ s ∧
      ∀ c ∈ l, (l.foldl (fun acc c => jsGcd acc (couponCost c)) s) ∣ couponCost c := by
  induction l generalizing s with
  | nil => exact ⟨dvd_refl s, by intro c hc; cases hc⟩
  | cons x xs ih =>
    simp only [List.foldl_cons]
    obtain ⟨h1, h2⟩ := ih (jsGcd s (couponCost x))
    have hg : jsGcd s (couponCost x) = Nat.gcd s (couponCost x) := jsGcd_eq_gcd ..
    refine ⟨h1.trans (hg ▸ Nat.gcd_dvd_left ..), ?_⟩
    intro c hc
    rcases List.mem_cons.mp hc with h | h
    · subst h; exact h1.trans (hg ▸ Nat.gcd_dvd_right ..)
    · exact h2 c h

theorem gcdFactor_dvd_wLimit (coupons : List Coupon) (P : ℚ) :
    gcdFactor coupons P ∣ wLimit P :=
  (foldl_jsGcd_dvd (validCoupons coupons P) (wLimit P)).1

theorem gcdFactor_dvd_cost (coupons : List Coupon) (P : ℚ) {c : Coupon}
    (hc : c ∈ validCoupons coupons P) :
    gcdFactor coupons P ∣ couponCost c :=
  (foldl_jsGcd_dvd (validCoupons coupons P) (wLimit P)).2 c hc

theorem expandAux_sum (count : ℕ) : ∀ k, (expandAux count k).sum = count := by
  induction count using Nat.strong_induction_on with
  | _ count ih =>
    intro k
    rw [expandAux_unfold]
    split
    · rename_i h
      have hp : 0 < 2 ^ k := Nat.pos_pow_of_pos k (by norm_num)
      rw [List.sum_cons, ih (count - 2 ^ k) (by omega) (k + 1)]
      omega
    · split
      · rename_i h0; simp [h0]
      · simp

theorem expandAux_pos (count : ℕ) : ∀ k q, q ∈ expandAux count k → 0 < q := by
  induction count using Nat.strong_induction_on with
  | _ count ih =>
    intro k q hq
    rw [expandAux_unfold] at hq
    split at hq
    · rename_i h
      have hp : 0 < 2 ^ k := Nat.pos_pow_of_pos k (by norm_num)
      rcases List.mem_cons.mp hq with h' | h'
      · omega
      · exact ih (count - 2 ^ k) (by omega) (k + 1) q h'
    · split at hq
      · cases hq
      · rename_i h h0
        rcases List.mem_singleton.mp hq with rfl
        omega

/-- The emitted quantities are the doubling powers `2^k, 2^(k+1), …`
for as long as they fit, followed by the non-zero remainder. -/
theorem expandAux_pattern (count : ℕ) : ∀ k, ∃ j r,
    expandAux count k =
      ((List.range j).map fun i => 2 ^ (k + i)) ++ (if r = 0 then [] else [r]) ∧
    count + 2 ^ k = 2 ^ (k + j) + r ∧ r < 2 ^ (k + j) := by
  induction count using Nat.strong_induction_on with
  | _ count ih =>
    intro k
    rw [expandAux_unfold]
    split
    · rename_i h
      have hp : 0 < 2 ^ k := Nat.pos_pow_of_pos k (by norm_num)
      obtain ⟨j, r, hlist, hsum, hlt⟩ := ih (count - 2 ^ k) (by omega) (k + 1)
      have e1 : 2 ^ (k + 1) = 2 * 2 ^ k := by rw [pow_succ]; ring
      have e2 : (2 : ℕ) ^ (k + (j + 1)) = 2 ^ (k + 1 + j) := by congr 1; omega
      refine ⟨j + 1, r, ?_, by omega, by omega⟩
      rw [hlist, List.range_succ_eq_map, List.map_cons, List.map_map]
      have e3 : ((fun i => 2 ^ (k + i)) ∘ Nat.succ) = fun i => 2 ^ (k + 1 + i) := by
        funext i; simp only [Function.comp]; congr 1; omega
      simp only [e3, Nat.add_zero, List.cons_append]
    · rename_i h
      have hsum : count + 2 ^ k = 2 ^ (k + 0) + count := by simp [Nat.add_comm]
      have hlt : count < 2 ^ (k + 0) := by simpa using Nat.lt_of_not_le h
      split
      · rename_i h0
        exact ⟨0, count, by simp [h0], hsum, hlt⟩
      · rename_i h0
        exact ⟨0, count, by simp [h0], hsum, hlt⟩

/-- Completeness of the decomposition, strengthened for the recursion:
any target `q` not exceeding the remaining count plus what the
already-emitted powers `1, …, 2^(k-1)` can supply (`2^k - 1`) splits
into a subset sum of the remaining emission plus a part `b < 2^k`. -/
theorem expandAux_complete (count : ℕ) : ∀ k q, q + 1 ≤ count + 2 ^ k →
    ∃ s : List ℕ, s.Sublist (expandAux count k) ∧ ∃ b, b + 1 ≤ 2 ^ k ∧ q = s.sum + b := by
  induction count using Nat.strong_induction_on with
  | _ count ih =>
    intro k q hq
    rw [expandAux_unfold]
    split
    · rename_i h
      have hp : 0 < 2 ^ k := Nat.pos_pow_of_pos k (by norm_num)
      have e1 : 2 ^ (k + 1) = 2 * 2 ^ k := by rw [pow_succ]; ring
      obtain ⟨s, hs, b, hb, hqb⟩ := ih (count - 2 ^ k) (by omega) (k + 1) q (by omega)
      by_cases hb2 : b + 1 ≤ 2 ^ k
      · exact ⟨s, hs.cons _, b, hb2, hqb⟩
      · exact ⟨2 ^ k :: s, hs.cons₂ _, b - 2 ^ k, by omega, by rw [List.sum_cons]; omega⟩
    · rename_i h
      split
      · rename_i h0
        exact ⟨[], List.Sublist.refl _, q, by omega, by simp⟩
      · rename_i h0
        by_cases hqs : q + 1 ≤ 2 ^ k
        · exact ⟨[], List.nil_sublist _, q, hqs, by simp⟩
        · refine ⟨[count], List.Sublist.refl _, q - count, by omega, by simp; omega⟩

theorem expandCounts_complete {c : ℕ} (q : ℕ) (hq : q ≤ c) :
    ∃ s : List ℕ, s.Sublist (expandCounts c) ∧ s.sum = q := by
  obtain ⟨s, hs, b, hb, hqb⟩ := expandAux_complete c 0 q (by simpa using Nat.succ_le_succ hq)
  exact ⟨s, hs, by simp at hb; omega⟩

theorem sublist_sum_le {s l : List ℕ} (h : s.Sublist l) : s.sum ≤ l.sum := by
  induction h with
  | slnil => simp
  | cons a h ih => simp only [List.sum_cons]; omega
  | cons₂ a h ih => simp only [List.sum_cons]; omega

theorem expandCounts_sum (c : ℕ) : (expandCounts c).sum = c := expandAux_sum c 0

theorem expandCounts_sound {c : ℕ} {s : List ℕ} (hs : s.Sublist (expandCounts c)) :
    s.sum ≤ c := by
  simpa [expandCounts_sum] using sublist_sum_le hs

/-! ## Knapsack semantics of the DP

`bestWith d l w` is the optimal value over 0/1 selections from the item
list `l` at capacity `w`, with continuation `d` evaluated on the unused
capacity.  It is the functional reading of the DP recurrence; we prove
the imperative fold `dpRun` computes it, that it attains some feasible
sublist and dominates all of them, and that over the binary-decomposed
pseudo-items of one coupon it equals the bounded-usage optimum `uBest`. -/

def costSum (s : List Item) : ℕ := (s.map Item.cost).sum

def valSum (s : List Item) : ℕ := (s.map Item.val).sum

@[simp] theorem costSum_nil : costSum [] = 0 := rfl

@[simp] theorem costSum_cons (a : Item) (l : List Item) :
    costSum (a :: l) = a.cost + costSum l := by simp [costSum]

@[simp] theorem valSum_nil : valSum [] = 0 := rfl

@[simp] theorem valSum_cons (a : Item) (l : List Item) :
    valSum (a :: l) = a.val + valSum l := by simp [valSum]

def bestWith (d : ℕ → ℕ) : List Item → ℕ → ℕ
  | [], w => d w
  | it :: rest, w =>
      if it.cost ≤ w then
        max (bestWith d rest w) (bestWith d rest (w - it.cost) + it.val)
      else bestWith d rest w

/-- Bounded-usage optimum for a single coupon: best over using the
coupon `u ≤ cnt` times, with continuation `d` on the leftover capacity. -/
def uBest (d : ℕ → ℕ) (cost val : ℕ) : ℕ → ℕ → ℕ
  | 0, w => d w
  | u + 1, w =>
      max (uBest d cost val u w)
        (if (u + 1) * cost ≤ w then d (w - (u + 1) * cost) + (u + 1) * val else 0)

/-- Bounded-knapsack optimum over a list of `(cost, value, count)`
triples with continuation `d`. -/
def tripleBestD (d : ℕ → ℕ) : List (ℕ × ℕ × ℕ) → ℕ → ℕ
  | [], w => d w
  | t :: rest, w => uBest (tripleBestD d rest) t.1 t.2.1 t.2.2 w

/-- The idealized (unbounded `ℕ`) counterpart of `dpStep`: the same
update without the 32-bit wrap on stores.  It agrees with `dpStep`
whenever no store overflows (`foldl_dpStep_eq_cast` below). -/
def dpStepN (d : ℕ → ℕ) (it : Item) : ℕ → ℕ := fun w =>
  if it.cost ≤ w then max (d w) (d (w - it.cost) + it.val) else d w

/-- The idealized unbounded dp table. -/
def dpRunN (items : List Item) : ℕ → ℕ :=
  items.foldl dpStepN fun _ => 0

/-- Processing one item in the imperative DP turns the table `d` into
the table of \"`d`, optionally improved by this item\". -/
theorem bestWith_step (d : ℕ → ℕ) (it : Item) (l : List Item) :
    ∀ w, bestWith (dpStepN d it) l w =
      if it.cost ≤ w then
        max (bestWith d l w) (bestWith d l (w - it.cost) + it.val)
      else bestWith d l w := by
  induction l with
  | nil => intro w; simp [bestWith, dpStepN]
  | cons r rs ih =>
    intro w
    simp only [bestWith, ih]
    have e1 : w - r.cost - it.cost = w - it.cost - r.cost := by omega
    rw [e1]
    split_ifs <;> omega

theorem foldl_dpStep_eq_bestWith (l : List Item) :
    ∀ (d : ℕ → ℕ) (w : ℕ), (l.foldl dpStepN d) w = bestWith d l w := by
  induction l with
  | nil => intro d w; rfl
  | cons it rest ih =>
    intro d w
    simp only [List.foldl_cons]
    rw [ih (dpStepN d it) w, bestWith_step]
    rfl

/-- The idealized DP table holds the 0/1-knapsack optimum. -/
theorem dpRunN_eq_bestWith (items : List Item) (w : ℕ) :
    dpRunN items w = bestWith (fun _ => 0) items w :=
  foldl_dpStep_eq_bestWith items _ w

/-! ## The wrapped table agrees with the idealized one below `2^31` -/

theorem toInt32_eq_self {x : ℤ} (h0 : 0 ≤ x) (h : x < 2 ^ 31) : toInt32 x = x := by
  have e1 : (2 : ℤ) ^ 31 = 2147483648 := by norm_num
  have e2 : (2 : ℤ) ^ 32 = 4294967296 := by norm_num
  rw [e1] at h
  rw [toInt32, e1, e2]
  omega

/-- If the table is bounded by `D` and `D + val` cannot overflow, the
wrapped step is the cast of the idealized step. -/
theorem dpStep_eq_cast (d : ℕ → ℕ) (it : Item) (D : ℕ)
    (hd : ∀ x, d x ≤ D) (hb : D + it.val < 2 ^ 31) :
    dpStep (fun x => ((d x : ℕ) : ℤ)) it = fun w => ((dpStepN d it w : ℕ) : ℤ) := by
  funext w
  simp only [dpStep, dpStepN]
  by_cases hc : it.cost ≤ w
  · rw [if_pos hc, if_pos hc]
    by_cases hlt : d w < d (w - it.cost) + it.val
    · rw [if_pos (by exact_mod_cast hlt), max_eq_right (le_of_lt hlt)]
      rw [show ((d (w - it.cost) : ℕ) : ℤ) + (it.val : ℤ) =
        ((d (w - it.cost) + it.val : ℕ) : ℤ) by push_cast; ring]
      refine toInt32_eq_self (by positivity) ?_
      have hn : d (w - it.cost) + it.val < 2 ^ 31 := by
        have := hd (w - it.cost)
        omega
      exact_mod_cast hn
    · rw [if_neg (by exact_mod_cast hlt), max_eq_left (not_lt.mp hlt)]
  · rw [if_neg hc, if_neg hc]

theorem foldl_dpStep_eq_cast :
    ∀ (items : List Item) (d : ℕ → ℕ) (D : ℕ), (∀ x, d x ≤ D) →
      D + valSum items < 2 ^ 31 → ∀ w,
      (items.foldl dpStep fun x => ((d x : ℕ) : ℤ)) w = ((items.foldl dpStepN d) w : ℤ) := by
  intro items
  induction items with
  | nil => intro d D _ _ w; rfl
  | cons it rest ih =>
    intro d D hd hb w
    rw [valSum_cons] at hb
    simp only [List.foldl_cons]
    rw [dpStep_eq_cast d it D hd (by omega)]
    refine ih (dpStepN d it) (D + it.val) ?_ (by omega) w
    intro x
    simp only [dpStepN]
    split
    · exact max_le (le_trans (hd x) (Nat.le_add_right D it.val))
        (Nat.add_le_add (hd _) (le_refl it.val))
    · exact le_trans (hd x) (Nat.le_add_right D it.val)

/-- Below `2^31` total value, the `Int32Array` table never wraps and
equals the idealized table. -/
theorem dpRun_eq_dpRunN (items : List Item) (h : valSum items < 2 ^ 31) (w : ℕ) :
    dpRun items w = ((dpRunN items w : ℕ) : ℤ) := by
  have hz : (fun _ : ℕ => (0 : ℤ)) = fun x : ℕ => (((fun _ : ℕ => 0) x : ℕ) : ℤ) := by
    funext x
    simp
  rw [dpRun, hz]
  exact foldl_dpStep_eq_cast items (fun _ => 0) 0 (fun x => le_refl 0) (by simpa using h) w

/-- `bestWith` attains the value of some feasible sublist. -/
theorem bestWith_attains (d : ℕ → ℕ) (l : List Item) : ∀ w, ∃ s : List Item,
    s.Sublist l ∧ costSum s ≤ w ∧
    bestWith d l w = d (w - costSum s) + valSum s := by
  induction l with
  | nil => intro w; exact ⟨[], List.Sublist.refl _, by simp, by simp [bestWith]⟩
  | cons it rest ih =>
    intro w
    by_cases hc : it.cost ≤ w
    · rcases le_total (bestWith d rest (w - it.cost) + it.val) (bestWith d rest w) with h | h
      · obtain ⟨s, hs, hcost, heq⟩ := ih w
        refine ⟨s, hs.cons it, hcost, ?_⟩
        simp only [bestWith, if_pos hc]
        rw [max_eq_left h, heq]
      · obtain ⟨s, hs, hcost, heq⟩ := ih (w - it.cost)
        refine ⟨it :: s, hs.cons₂ it, by simp; omega, ?_⟩
        simp only [bestWith, if_pos hc]
        rw [max_eq_right h, heq]
        simp only [costSum_cons, valSum_cons]
        have e1 : w - it.cost - costSum s = w - (it.cost + costSum s) := by omega
        rw [e1]
        omega
    · obtain ⟨s, hs, hcost, heq⟩ := ih w
      exact ⟨s, hs.cons it, hcost, by simp [bestWith, hc, heq]⟩

/-- `bestWith` dominates every feasible sublist. -/
theorem bestWith_dominates (d : ℕ → ℕ) {s l : List Item} (hs : s.Sublist l) :
    ∀ w, costSum s ≤ w → d (w - costSum s) + valSum s ≤ bestWith d l w := by
  induction hs with
  | slnil => intro w h; simp [bestWith]
  | @cons s' l' a h ih =>
    intro w hw
    by_cases hc : a.cost ≤ w
    · exact le_trans (ih w hw) (by simp [bestWith, hc, le_max_left])
    · simpa [bestWith, hc] using ih w hw
  | @cons₂ s' l' a h ih =>
    intro w hw
    simp only [costSum_cons, valSum_cons] at hw ⊢
    have hc : a.cost ≤ w := by omega
    have h1 := ih (w - a.cost) (by omega)
    have e1 : w - a.cost - costSum s' = w - (a.cost + costSum s') := by omega
    rw [e1] at h1
    calc d (w - (a.cost + costSum s')) + (a.val + valSum s')
        ≤ bestWith d l' (w - a.cost) + a.val := by omega
      _ ≤ bestWith d (a :: l') w := by simp [bestWith, hc, le_max_right]

/-- `uBest` attains the value of some feasible usage. -/
theorem uBest_attains (d : ℕ → ℕ) (cost val : ℕ) : ∀ cnt w, ∃ u, u ≤ cnt ∧ u * cost ≤ w ∧
    uBest d cost val cnt w = d (w - u * cost) + u * val := by
  intro cnt
  induction cnt with
  | zero => intro w; exact ⟨0, le_refl _, by simp, by simp [uBest]⟩
  | succ n ih =>
    intro w
    obtain ⟨u, hu, hf, he⟩ := ih w
    by_cases hc : (n + 1) * cost ≤ w
    · rcases le_total (d (w - (n + 1) * cost) + (n + 1) * val) (uBest d cost val n w) with h | h
      · exact ⟨u, by omega, hf, by rw [uBest, if_pos hc, max_eq_left h, he]⟩
      · exact ⟨n + 1, le_refl _, hc, by rw [uBest, if_pos hc, max_eq_right h]⟩
    · refine ⟨u, by omega, hf, ?_⟩
      rw [uBest, if_neg hc, Nat.max_zero, he]

/-- `uBest` dominates every feasible usage. -/
theorem uBest_dominates (d : ℕ → ℕ) (cost val : ℕ) {u : ℕ} :
    ∀ cnt w, u ≤ cnt → u * cost ≤ w →
      d (w - u * cost) + u * val ≤ uBest d cost val cnt w := by
  intro cnt
  induction cnt with
  | zero =>
    intro w hu hf
    interval_cases u
    simp [uBest]
  | succ n ih =>
    intro w hu hf
    rcases Nat.lt_or_ge u (n + 1) with h | h
    · exact le_trans (ih w (by omega) hf) (le_max_left _ _)
    · have hu' : u = n + 1 := by omega
      subst hu'
      rw [uBest, if_pos hf]
      exact le_max_right _ _

theorem couponItems_costSum (g : ℕ) (c : Coupon) (t : List ℕ) :
    costSum (t.map fun q => Item.mk (itemCost g c * q) (couponVal c * q) c.id q) =
      itemCost g c * t.sum := by
  induction t with
  | nil => simp
  | cons a l ih => simp [ih, Nat.mul_add]

theorem couponItems_valSum (g : ℕ) (c : Coupon) (t : List ℕ) :
    valSum (t.map fun q => Item.mk (itemCost g c * q) (couponVal c * q) c.id q) =
      couponVal c * t.sum := by
  induction t with
  | nil => simp
  | cons a l ih => simp [ih, Nat.mul_add]

/-- Over the binary-decomposed pseudo-items of one coupon, the 0/1
optimum equals the bounded-usage optimum. -/
theorem bestWith_couponItems (d : ℕ → ℕ) (g : ℕ) (c : Coupon) (w : ℕ) :
    bestWith d (couponItems g c) w = uBest d (itemCost g c) (couponVal c) c.count w := by
  apply le_antisymm
  · obtain ⟨s, hs, hcost, heq⟩ := bestWith_attains d (couponItems g c) w
    rw [couponItems] at hs
    obtain ⟨t, ht, rfl⟩ := List.sublist_map_iff.mp hs
    have hq : t.sum ≤ c.count := expandCounts_sound ht
    have hfeas : t.sum * itemCost g c ≤ w := by
      rw [couponItems_costSum] at hcost
      rwa [Nat.mul_comm] at hcost
    rw [heq, couponItems_costSum, couponItems_valSum, Nat.mul_comm (itemCost g c) t.sum,
      Nat.mul_comm (couponVal c) t.sum]
    exact uBest_dominates d (itemCost g c) (couponVal c) c.count w hq hfeas
  · obtain ⟨u, hu, hf, heq⟩ := uBest_attains d (itemCost g c) (couponVal c) c.count w
    obtain ⟨t, ht, hsum⟩ := expandCounts_complete u hu
    have hs : (t.map fun q => Item.mk (itemCost g c * q) (couponVal c * q) c.id q).Sublist
        (couponItems g c) := ht.map _
    have h2 := bestWith_dominates d hs w
      (by rw [couponItems_costSum, hsum, Nat.mul_comm]; exact hf)
    rw [couponItems_costSum, couponItems_valSum, hsum, Nat.mul_comm (itemCost g c) u,
      Nat.mul_comm (couponVal c) u] at h2
    rw [heq]
    exact h2

theorem bestWith_append (d : ℕ → ℕ) (l1 l2 : List Item) :
    ∀ w, bestWith d (l1 ++ l2) w = bestWith (fun x => bestWith d l2 x) l1 w := by
  induction l1 with
  | nil => intro w; rfl
  | cons it rest ih =>
    intro w
    simp only [List.cons_append, bestWith, List.append_eq, ih]

/-- The 0/1 optimum over the whole pseudo-item list equals the
bounded-knapsack optimum over the coupons' `(cost, value, count)`. -/
theorem bestWith_flatMap (d : ℕ → ℕ) (g : ℕ) (cs : List Coupon) :
    ∀ w, bestWith d (cs.flatMap (couponItems g)) w =
      tripleBestD d (cs.map fun c => (itemCost g c, couponVal c, c.count)) w := by
  induction cs with
  | nil => intro w; rfl
  | cons c rest ih =>
    intro w
    rw [List.flatMap_cons, bestWith_append, bestWith_couponItems]
    have hfun : (fun x => bestWith d (rest.flatMap (couponItems g)) x) =
        tripleBestD d (rest.map fun c => (itemCost g c, couponVal c, c.count)) := funext ih
    rw [hfun]
    rfl

/-! ## GCD reduction preserves the optimum -/

theorem uBest_reduce {g : ℕ} (hg : 0 < g) {d d' : ℕ → ℕ}
    (hd : ∀ x, g ∣ x → d' (x / g) = d x) {cost : ℕ} (val : ℕ) (hc : g ∣ cost) :
    ∀ cnt {w}, g ∣ w → uBest d' (cost / g) val cnt (w / g) = uBest d cost val cnt w := by
  obtain ⟨c', rfl⟩ := hc
  intro cnt
  induction cnt with
  | zero => intro w hw; exact hd w hw
  | succ n ih =>
    intro w hw
    obtain ⟨w', rfl⟩ := hw
    rw [uBest, uBest, ih ⟨w', rfl⟩, Nat.mul_div_cancel_left c' hg,
      Nat.mul_div_cancel_left w' hg]
    congr 1
    have hmul : (n + 1) * (g * c') = g * ((n + 1) * c') := by ring
    by_cases h : (n + 1) * c' ≤ w'
    · rw [if_pos h, if_pos (by rw [hmul]; exact (mul_le_mul_left hg).mpr h)]
      congr 1
      have e : g * w' - (n + 1) * (g * c') = g * (w' - (n + 1) * c') := by
        rw [hmul, Nat.mul_sub]
      rw [e, ← hd (g * (w' - (n + 1) * c')) ⟨_, rfl⟩, Nat.mul_div_cancel_left _ hg]
    · rw [if_neg h, if_neg (by rw [hmul]; exact fun hx => h ((mul_le_mul_left hg).mp hx))]

/-- Dividing every cost and the capacity by a common divisor `g` leaves
the bounded-knapsack optimum unchanged. -/
theorem tripleBestD_reduce {g : ℕ} (hg : 0 < g) :
    ∀ ts : List (ℕ × ℕ × ℕ), (∀ t ∈ ts, g ∣ t.1) → ∀ {w}, g ∣ w →
      tripleBestD (fun _ => 0) (ts.map fun t => (t.1 / g, t.2.1, t.2.2)) (w / g) =
        tripleBestD (fun _ => 0) ts w := by
  have main : ∀ ts : List (ℕ × ℕ × ℕ), (∀ t ∈ ts, g ∣ t.1) → ∀ {w}, g ∣ w →
      ∀ {d d' : ℕ → ℕ}, (∀ x, g ∣ x → d' (x / g) = d x) →
      tripleBestD d' (ts.map fun t => (t.1 / g, t.2.1, t.2.2)) (w / g) =
        tripleBestD d ts w := by
    intro ts
    induction ts with
    | nil => intro _ w hw d d' hd; exact hd w hw
    | cons t rest ih =>
      intro hts w hw d d' hd
      rw [List.map_cons]
      show uBest (tripleBestD d' (rest.map fun t => (t.1 / g, t.2.1, t.2.2)))
          (t.1 / g) t.2.1 t.2.2 (w / g) =
        uBest (tripleBestD d rest) t.1 t.2.1 t.2.2 w
      exact uBest_reduce hg
        (fun x hx => ih (fun t' ht' => hts t' (List.mem_cons_of_mem _ ht')) hx hd)
        t.2.1 (hts t (List.mem_cons_self _ _)) t.2.2 hw
  intro ts hts w hw
  exact main ts hts hw (fun x _ => rfl)

/-! ## The brute-force specification

A selection assigns each `(cost, value, count)` triple a usage between
0 and its count; it is feasible when its total cost does not exceed the
capacity; `bruteForceMax` is the maximum selection value. -/

def usageVectors : List (ℕ × ℕ × ℕ) → List (List ℕ)
  | [] => [[]]
  | t :: rest => (List.range (t.2.2 + 1)).flatMap fun u => (usageVectors rest).map (u :: ·)

def selCost : List (ℕ × ℕ × ℕ) → List ℕ → ℕ
  | t :: ts, u :: us => u * t.1 + selCost ts us
  | _, _ => 0

def selVal : List (ℕ × ℕ × ℕ) → List ℕ → ℕ
  | t :: ts, u :: us => u * t.2.1 + selVal ts us
  | _, _ => 0

def bruteForceMax (ts : List (ℕ × ℕ × ℕ)) (w : ℕ) : ℕ :=
  (((usageVectors ts).filter fun u => selCost ts u ≤ w).map (selVal ts)).foldr max 0

theorem mem_usageVectors_cons {t : ℕ × ℕ × ℕ} {ts : List (ℕ × ℕ × ℕ)} {l : List ℕ} :
    l ∈ usageVectors (t :: ts) ↔
      ∃ u us, l = u :: us ∧ u ≤ t.2.2 ∧ us ∈ usageVectors ts := by
  simp only [usageVectors, List.mem_flatMap, List.mem_range, List.mem_map, Nat.lt_succ_iff]
  constructor
  · rintro ⟨u, hu, us, hus, rfl⟩
    exact ⟨u, us, rfl, hu, hus⟩
  · rintro ⟨u, us, rfl, hu, hus⟩
    exact ⟨u, hu, us, hus, rfl⟩

theorem nil_mem_usageVectors_nil : ([] : List ℕ) ∈ usageVectors [] := by
  simp [usageVectors]

theorem le_foldr_max {l : List ℕ} {x : ℕ} (hx : x ∈ l) : x ≤ l.foldr max 0 := by
  induction l with
  | nil => cases hx
  | cons a l ih =>
    rcases List.mem_cons.mp hx with rfl | h
    · exact le_max_left _ _
    · exact le_trans (ih h) (le_max_right _ _)

theorem foldr_max_cases (l : List ℕ) : l.foldr max 0 = 0 ∨ l.foldr max 0 ∈ l := by
  induction l with
  | nil => left; rfl
  | cons a l ih =>
    rcases le_total a (l.foldr max 0) with h | h
    · rw [List.foldr_cons, max_eq_right h]
      rcases ih with h0 | hm
      · left; exact h0
      · right; exact List.mem_cons_of_mem _ hm
    · right; rw [List.foldr_cons, max_eq_left h]
      exact List.mem_cons_self _ _

/-- The bounded-knapsack recursion dominates every feasible selection. -/
theorem tripleBest_dominates :
    ∀ (ts : List (ℕ × ℕ × ℕ)) {u : List ℕ}, u ∈ usageVectors ts →
      ∀ {w}, selCost ts u ≤ w → selVal ts u ≤ tripleBestD (fun _ => 0) ts w := by
  intro ts
  induction ts with
  | nil => intro u _ w _; simp [selVal]
  | cons t rest ih =>
    intro u hu w hw
    obtain ⟨u0, us, rfl, hu0, hus⟩ := mem_usageVectors_cons.mp hu
    simp only [selCost, selVal] at hw ⊢
    have hf : u0 * t.1 ≤ w := by omega
    have h1 : selVal rest us ≤ tripleBestD (fun _ => 0) rest (w - u0 * t.1) :=
      ih hus (by omega)
    calc u0 * t.2.1 + selVal rest us
        ≤ tripleBestD (fun _ => 0) rest (w - u0 * t.1) + u0 * t.2.1 := by omega
      _ ≤ uBest (tripleBestD (fun _ => 0) rest) t.1 t.2.1 t.2.2 w :=
          uBest_dominates _ _ _ t.2.2 w hu0 hf
      _ = tripleBestD (fun _ => 0) (t :: rest) w := rfl

/-- The bounded-knapsack recursion attains some feasible selection. -/
theorem tripleBest_attains :
    ∀ (ts : List (ℕ × ℕ × ℕ)) (w : ℕ), ∃ u ∈ usageVectors ts,
      selCost ts u ≤ w ∧ tripleBestD (fun _ => 0) ts w = selVal ts u := by
  intro ts
  induction ts with
  | nil =>
    intro w
    exact ⟨[], nil_mem_usageVectors_nil, by simp [selCost], by simp [selVal, tripleBestD]⟩
  | cons t rest ih =>
    intro w
    obtain ⟨u0, hu0, hf, heq⟩ := uBest_attains (tripleBestD (fun _ => 0) rest) t.1 t.2.1 t.2.2 w
    obtain ⟨us, hus, hcost, hval⟩ := ih (w - u0 * t.1)
    refine ⟨u0 :: us, mem_usageVectors_cons.mpr ⟨u0, us, rfl, hu0, hus⟩, ?_, ?_⟩
    · simp only [selCost]; omega
    · show uBest (tripleBestD (fun _ => 0) rest) t.1 t.2.1 t.2.2 w = selVal (t :: rest) (u0 :: us)
      simp only [selVal]
      omega

/-- The DP's bounded-knapsack optimum is the brute-force maximum. -/
theorem tripleBest_eq_bruteForceMax (ts : List (ℕ × ℕ × ℕ)) (w : ℕ) :
    tripleBestD (fun _ => 0) ts w = bruteForceMax ts w := by
  apply le_antisymm
  · obtain ⟨u, hu, hcost, heq⟩ := tripleBest_attains ts w
    rw [heq]
    apply le_foldr_max
    exact List.mem_map_of_mem _ (List.mem_filter.mpr ⟨hu, by simpa using hcost⟩)
  · rcases foldr_max_cases (((usageVectors ts).filter fun u => selCost ts u ≤ w).map (selVal ts))
      with h0 | hm
    · rw [bruteForceMax, h0]; exact Nat.zero_le _
    · obtain ⟨u, hu, hval⟩ := List.mem_map.mp hm
      obtain ⟨huv, hcost⟩ := List.mem_filter.mp hu
      rw [bruteForceMax, ← hval]
      exact tripleBest_dominates ts huv (by simpa using hcost)

/-! ## Dropping unaffordable coupons and the trivial case -/

theorem uBest_infeasible (d : ℕ → ℕ) {cost : ℕ} (val cnt : ℕ) {w : ℕ} (h : w < cost) :
    uBest d cost val cnt w = d w := by
  induction cnt with
  | zero => rfl
  | succ n ih =>
    have h1 : cost ≤ (n + 1) * cost := Nat.le_mul_of_pos_left cost (by omega)
    rw [uBest, ih, if_neg (by omega), Nat.max_zero]

theorem uBest_congr_le (cost val : ℕ) {d₁ d₂ : ℕ → ℕ} :
    ∀ cnt w, (∀ x, x ≤ w → d₁ x = d₂ x) → uBest d₁ cost val cnt w = uBest d₂ cost val cnt w := by
  intro cnt
  induction cnt with
  | zero => intro w h; exact h w (le_refl w)
  | succ n ih =>
    intro w h
    rw [uBest, uBest, ih w h]
    congr 1
    by_cases hc : (n + 1) * cost ≤ w
    · rw [if_pos hc, if_pos hc, h _ (by omega)]
    · rw [if_neg hc, if_neg hc]

/-- Triples whose single-use cost already exceeds a capacity bound `W`
can be dropped without changing the optimum at any `w ≤ W`. -/
theorem tripleBest_filter_affordable :
    ∀ (ts : List (ℕ × ℕ × ℕ)) (W : ℕ) {w : ℕ}, w ≤ W →
      tripleBestD (fun _ => 0) (ts.filter fun t => t.1 ≤ W) w =
        tripleBestD (fun _ => 0) ts w := by
  intro ts W
  induction ts with
  | nil => intro w _; rfl
  | cons t rest ih =>
    intro w hw
    by_cases ht : t.1 ≤ W
    · rw [List.filter_cons_of_pos (by simpa using ht)]
      show uBest (tripleBestD (fun _ => 0) (rest.filter fun t => t.1 ≤ W)) t.1 t.2.1 t.2.2 w =
        uBest (tripleBestD (fun _ => 0) rest) t.1 t.2.1 t.2.2 w
      exact uBest_congr_le _ _ _ w fun x hx => ih (le_trans hx hw)
    · rw [List.filter_cons_of_neg (by simpa using ht)]
      rw [ih hw]
      exact (uBest_infeasible _ _ _ (by omega)).symm

theorem selVal_le_total :
    ∀ (ts : List (ℕ × ℕ × ℕ)) {u : List ℕ}, u ∈ usageVectors ts →
      selVal ts u ≤ (ts.map fun t => t.2.1 * t.2.2).sum := by
  intro ts
  induction ts with
  | nil => intro u _; simp [selVal]
  | cons t rest ih =>
    intro u hu
    obtain ⟨u0, us, rfl, hu0, hus⟩ := mem_usageVectors_cons.mp hu
    simp only [selVal, List.map_cons, List.sum_cons]
    have h1 : u0 * t.2.1 ≤ t.2.1 * t.2.2 := by
      rw [Nat.mul_comm]
      exact Nat.mul_le_mul_left _ hu0
    have h2 := ih hus
    omega

theorem full_mem_usageVectors (ts : List (ℕ × ℕ × ℕ)) :
    (ts.map fun t => t.2.2) ∈ usageVectors ts := by
  induction ts with
  | nil => exact nil_mem_usageVectors_nil
  | cons t rest ih =>
    exact mem_usageVectors_cons.mpr ⟨t.2.2, _, rfl, le_refl _, ih⟩

theorem selCost_full (ts : List (ℕ × ℕ × ℕ)) :
    selCost ts (ts.map fun t => t.2.2) = (ts.map fun t => t.1 * t.2.2).sum := by
  induction ts with
  | nil => rfl
  | cons t rest ih => simp [selCost, ih, Nat.mul_comm]

theorem selVal_full (ts : List (ℕ × ℕ × ℕ)) :
    selVal ts (ts.map fun t => t.2.2) = (ts.map fun t => t.2.1 * t.2.2).sum := by
  induction ts with
  | nil => rfl
  | cons t rest ih => simp [selVal, ih, Nat.mul_comm]

/-- When every coupon fits together, the optimum is to take everything. -/
theorem bruteForceMax_trivial (ts : List (ℕ × ℕ × ℕ)) (w : ℕ)
    (h : (ts.map fun t => t.1 * t.2.2).sum ≤ w) :
    bruteForceMax ts w = (ts.map fun t => t.2.1 * t.2.2).sum := by
  rw [← tripleBest_eq_bruteForceMax]
  apply le_antisymm
  · obtain ⟨u, hu, _, heq⟩ := tripleBest_attains ts w
    rw [heq]
    exact selVal_le_total ts hu
  · have := tripleBest_dominates ts (full_mem_usageVectors ts)
      (w := w) (by rw [selCost_full]; exact h)
    rwa [selVal_full] at this

/-! ## The reconstruction walk -/

theorem walkRev_sublist : ∀ (l : List Item) (w : ℕ), (walkRev l w).Sublist l := by
  intro l
  induction l with
  | nil => intro w; simp [walkRev]
  | cons it rest ih =>
    intro w
    rw [walkRev]
    split
    · exact (ih _).cons₂ it
    · exact (ih _).cons it

/-- The decision flag only fires at capacities at least the item's
cost, so the walk's selected costs fit within the capacity. -/
theorem walkRev_cost : ∀ (l : List Item) (w : ℕ), costSum (walkRev l w) ≤ w := by
  intro l
  induction l with
  | nil => intro w; simp [walkRev]
  | cons it rest ih =>
    intro w
    rw [walkRev]
    split
    · rename_i hk
      simp only [keepFlag, Bool.and_eq_true, decide_eq_true_eq] at hk
      have hc : it.cost ≤ w := hk.1
      simp only [costSum_cons]
      have := ih (w - it.cost)
      omega
    · exact ih w

/-! ## The usage map (JavaScript `Map` semantics) -/

def keysOf (m : List (String × ℕ)) : List String := m.map Prod.fst

/-- First-occurrence lookup with default 0 (`map.get(id) || 0`). -/
def lookupVal (m : List (String × ℕ)) (k : String) : ℕ :=
  match m with
  | [] => 0
  | p :: rest => if p.1 = k then p.2 else lookupVal rest k

/-- Total represented quantity of items with a given source coupon id. -/
def sumCounts (l : List Item) (k : String) : ℕ :=
  ((l.filter fun it => it.originalCouponId = k).map Item.realCount).sum

@[simp] theorem sumCounts_nil (k : String) : sumCounts [] k = 0 := rfl

theorem sumCounts_cons (it : Item) (l : List Item) (k : String) :
    sumCounts (it :: l) k =
      (if it.originalCouponId = k then it.realCount else 0) + sumCounts l k := by
  by_cases h : it.originalCouponId = k <;>
    simp [sumCounts, List.filter_cons, h]

theorem sumCounts_append (l1 l2 : List Item) (k : String) :
    sumCounts (l1 ++ l2) k = sumCounts l1 k + sumCounts l2 k := by
  simp [sumCounts]

theorem sumCounts_reverse (l : List Item) (k : String) :
    sumCounts l.reverse k = sumCounts l k := by
  rw [sumCounts, sumCounts, List.filter_reverse, List.map_reverse, List.sum_reverse]

theorem sumCounts_sublist {s l : List Item} (h : s.Sublist l) (k : String) :
    sumCounts s k ≤ sumCounts l k :=
  sublist_sum_le (List.Sublist.map _ (List.Sublist.filter _ h))

theorem keysOf_addUsage_mem (m : List (String × ℕ)) (k : String) (n : ℕ)
    (h : (m.any fun p => p.1 = k) = true) :
    keysOf (addUsage m k n) = keysOf m := by
  rw [addUsage, if_pos h, keysOf, keysOf, List.map_map]
  apply List.map_congr_left
  intro p _
  by_cases hp : p.1 = k <;> simp [hp]

theorem keysOf_addUsage_not_mem (m : List (String × ℕ)) (k : String) (n : ℕ)
    (h : ¬ (m.any fun p => p.1 = k) = true) :
    keysOf (addUsage m k n) = keysOf m ++ [k] := by
  rw [addUsage, if_neg h, keysOf, keysOf, List.map_append, List.map_cons, List.map_nil]

theorem any_eq_mem_keysOf (m : List (String × ℕ)) (k : String) :
    (m.any fun p => p.1 = k) = true ↔ k ∈ keysOf m := by
  rw [List.any_eq_true]
  constructor
  · rintro ⟨p, hp, he⟩
    simp only [decide_eq_true_eq] at he
    exact he ▸ List.mem_map_of_mem Prod.fst hp
  · intro hk
    obtain ⟨p, hp, he⟩ := List.mem_map.mp hk
    exact ⟨p, hp, by simpa using he⟩

theorem nodup_keysOf_addUsage {m : List (String × ℕ)} (hm : (keysOf m).Nodup)
    (k : String) (n : ℕ) : (keysOf (addUsage m k n)).Nodup := by
  by_cases h : (m.any fun p => p.1 = k) = true
  · rwa [keysOf_addUsage_mem m k n h]
  · rw [keysOf_addUsage_not_mem m k n h]
    have hk : k ∉ keysOf m := fun hmem => h ((any_eq_mem_keysOf m k).mpr hmem)
    simp [List.nodup_append, hm, hk]

theorem lookupVal_mapUpdate_self (k : String) (n : ℕ) :
    ∀ m : List (String × ℕ), (m.any fun p => p.1 = k) = true →
      lookupVal (m.map fun p => if p.1 = k then (p.1, p.2 + n) else p) k =
        lookupVal m k + n := by
  intro m
  induction m with
  | nil => intro h; simp at h
  | cons p rest ih =>
    intro h
    by_cases hp : p.1 = k
    · simp [lookupVal, hp]
    · simp only [List.any_cons, Bool.or_eq_true, decide_eq_true_eq] at h
      rcases h with h | h
      · exact absurd h hp
      · simp only [List.map_cons, if_neg hp, lookupVal]
        exact ih h

theorem lookupVal_mapUpdate_ne (k k' : String) (hne : k ≠ k') (n : ℕ) :
    ∀ m : List (String × ℕ),
      lookupVal (m.map fun p => if p.1 = k then (p.1, p.2 + n) else p) k' =
        lookupVal m k' := by
  intro m
  induction m with
  | nil => rfl
  | cons p rest ih =>
    by_cases hp : p.1 = k
    · have hp' : ¬ p.1 = k' := by rw [hp]; exact hne
      simp only [List.map_cons, if_pos hp, lookupVal]
      rw [if_neg hp', if_neg hp']
      exact ih
    · by_cases hp' : p.1 = k'
      · simp only [List.map_cons, if_neg hp, lookupVal]
        rw [if_pos hp', if_pos hp']
      · simp only [List.map_cons, if_neg hp, lookupVal]
        rw [if_neg hp', if_neg hp']
        exact ih

theorem lookupVal_append_single (k : String) (n : ℕ) :
    ∀ m : List (String × ℕ), (∀ p ∈ m, p.1 ≠ k) →
      lookupVal (m ++ [(k, n)]) k = lookupVal m k + n := by
  intro m
  induction m with
  | nil => intro _; simp [lookupVal]
  | cons p rest ih =>
    intro h
    have hp := h p (List.mem_cons_self _ _)
    simp only [List.cons_append, lookupVal]
    rw [if_neg hp, if_neg hp]
    exact ih fun q hq => h q (List.mem_cons_of_mem _ hq)

theorem lookupVal_append_single_ne {k k' : String} (hne : k ≠ k') (n : ℕ) :
    ∀ m : List (String × ℕ), lookupVal (m ++ [(k, n)]) k' = lookupVal m k' := by
  intro m
  induction m with
  | nil => simp [lookupVal, hne]
  | cons p rest ih =>
    simp only [List.cons_append, lookupVal]
    by_cases hp : p.1 = k'
    · rw [if_pos hp, if_pos hp]
    · rw [if_neg hp, if_neg hp]
      exact ih

theorem lookupVal_addUsage_self (m : List (String × ℕ)) (k : String) (n : ℕ) :
    lookupVal (addUsage m k n) k = lookupVal m k + n := by
  rw [addUsage]
  by_cases h : (m.any fun p => p.1 = k) = true
  · rw [if_pos h]
    exact lookupVal_mapUpdate_self k n m h
  · rw [if_neg h]
    apply lookupVal_append_single
    intro p hp hpk
    exact h (List.any_eq_true.mpr ⟨p, hp, by simpa using hpk⟩)

theorem lookupVal_addUsage_ne (m : List (String × ℕ)) {k k' : String} (hne : k ≠ k')
    (n : ℕ) : lookupVal (addUsage m k n) k' = lookupVal m k' := by
  rw [addUsage]
  by_cases h : (m.any fun p => p.1 = k) = true
  · rw [if_pos h]
    exact lookupVal_mapUpdate_ne k k' hne n m
  · rw [if_neg h]
    exact lookupVal_append_single_ne hne n m

/-- `lookupVal` after the whole walk accumulation. -/
theorem lookupVal_foldl_addUsage :
    ∀ (taken : List Item) (m : List (String × ℕ)) (k : String),
      lookupVal (taken.foldl (fun m it => addUsage m it.originalCouponId it.realCount) m) k =
        lookupVal m k + sumCounts taken k := by
  intro taken
  induction taken with
  | nil => intro m k; simp
  | cons it rest ih =>
    intro m k
    rw [List.foldl_cons, ih, sumCounts_cons]
    by_cases h : it.originalCouponId = k
    · rw [if_pos h, h, lookupVal_addUsage_self]
      omega
    · rw [if_neg h, lookupVal_addUsage_ne m h]
      omega

theorem nodup_keysOf_foldl_addUsage :
    ∀ (taken : List Item) (m : List (String × ℕ)), (keysOf m).Nodup →
      (keysOf (taken.foldl (fun m it => addUsage m it.originalCouponId it.realCount) m)).Nodup := by
  intro taken
  induction taken with
  | nil => intro m hm; exact hm
  | cons it rest ih =>
    intro m hm
    exact ih _ (nodup_keysOf_addUsage hm _ _)

theorem mem_keysOf_foldl_addUsage :
    ∀ (taken : List Item) (m : List (String × ℕ)) (k : String),
      k ∈ keysOf (taken.foldl (fun m it => addUsage m it.originalCouponId it.realCount) m) ↔
        k ∈ keysOf m ∨ ∃ it ∈ taken, it.originalCouponId = k := by
  intro taken
  induction taken with
  | nil => intro m k; simp
  | cons it rest ih =>
    intro m k
    rw [List.foldl_cons, ih]
    by_cases h : (m.any fun p => p.1 = it.originalCouponId) = true
    · rw [keysOf_addUsage_mem _ _ _ h]
      constructor
      · rintro (hk | ⟨it', hit', he⟩)
        · exact Or.inl hk
        · exact Or.inr ⟨it', List.mem_cons_of_mem _ hit', he⟩
      · rintro (hk | ⟨it', hit', he⟩)
        · exact Or.inl hk
        · rcases List.mem_cons.mp hit' with rfl | hit'
          · exact Or.inl (he ▸ (any_eq_mem_keysOf m _).mp h)
          · exact Or.inr ⟨it', hit', he⟩
    · rw [keysOf_addUsage_not_mem _ _ _ h]
      constructor
      · rintro (hk | ⟨it', hit', he⟩)
        · rcases List.mem_append.mp hk with hk | hk
          · exact Or.inl hk
          · exact Or.inr ⟨it, List.mem_cons_self _ _, (List.mem_singleton.mp hk).symm⟩
        · exact Or.inr ⟨it', List.mem_cons_of_mem _ hit', he⟩
      · rintro (hk | ⟨it', hit', he⟩)
        · exact Or.inl (List.mem_append.mpr (Or.inl hk))
        · rcases List.mem_cons.mp hit' with rfl | hit'
          · exact Or.inl (List.mem_append.mpr (Or.inr (List.mem_singleton.mpr he.symm)))
          · exact Or.inr ⟨it', hit', he⟩

/-- In a map with distinct keys, every entry holds its looked-up value. -/
theorem entry_eq_lookupVal :
    ∀ (m : List (String × ℕ)), (keysOf m).Nodup → ∀ {k : String} {v : ℕ}, (k, v) ∈ m →
      v = lookupVal m k := by
  intro m
  induction m with
  | nil => intro _ k v hv; cases hv
  | cons p rest ih =>
    intro hm k v hv
    simp only [keysOf, List.map_cons, List.nodup_cons] at hm
    rcases List.mem_cons.mp hv with rfl | hv
    · simp [lookupVal]
    · have hk : p.1 ≠ k := by
        intro he
        apply hm.1
        have : k ∈ List.map Prod.fst rest := List.mem_map_of_mem Prod.fst hv
        rwa [← he] at this
      simp only [lookupVal]
      rw [if_neg hk]
      exact ih hm.2 hv

theorem mem_keysOf_of_mem {m : List (String × ℕ)} {k : String} {v : ℕ}
    (h : (k, v) ∈ m) : k ∈ keysOf m :=
  List.mem_map_of_mem Prod.fst h

/-! Weighted sums over the usage map. -/

theorem map_mapUpdate_sum (gf : String → ℕ) (k : String) (n : ℕ) :
    ∀ m : List (String × ℕ), (keysOf m).Nodup → (m.any fun p => p.1 = k) = true →
      ((m.map fun p => if p.1 = k then (p.1, p.2 + n) else p).map fun p => p.2 * gf p.1).sum =
        (m.map fun p => p.2 * gf p.1).sum + n * gf k := by
  intro m
  induction m with
  | nil => intro _ h; simp at h
  | cons p rest ih =>
    intro hm h
    simp only [keysOf, List.map_cons, List.nodup_cons] at hm
    by_cases hp : p.1 = k
    · have hrest : (rest.map fun q => if q.1 = k then (q.1, q.2 + n) else q) = rest := by
        have hid : (rest.map fun q => if q.1 = k then (q.1, q.2 + n) else q) = rest.map id := by
          apply List.map_congr_left
          intro q hq
          have hqk : ¬ q.1 = k := by
            intro he
            apply hm.1
            have : q.1 ∈ List.map Prod.fst rest := List.mem_map_of_mem Prod.fst hq
            rwa [he, ← hp] at this
          simp [hqk]
        rw [hid, List.map_id]
      simp only [List.map_cons, if_pos hp, hrest, List.sum_cons]
      rw [hp]
      ring
    · simp only [List.any_cons, Bool.or_eq_true, decide_eq_true_eq] at h
      rcases h with h | h
      · exact absurd h hp
      · simp only [List.map_cons, if_neg hp, List.sum_cons]
        rw [ih hm.2 h]
        ring

theorem map_addUsage_sum (gf : String → ℕ) {m : List (String × ℕ)}
    (hm : (keysOf m).Nodup) (k : String) (n : ℕ) :
    ((addUsage m k n).map fun p => p.2 * gf p.1).sum =
      (m.map fun p => p.2 * gf p.1).sum + n * gf k := by
  rw [addUsage]
  by_cases h : (m.any fun p => p.1 = k) = true
  · rw [if_pos h]
    exact map_mapUpdate_sum gf k n m hm h
  · rw [if_neg h]
    simp

theorem map_foldl_addUsage_sum (gf : String → ℕ) :
    ∀ (taken : List Item) (m : List (String × ℕ)), (keysOf m).Nodup →
      (((taken.foldl (fun m it => addUsage m it.originalCouponId it.realCount) m)).map
          fun p => p.2 * gf p.1).sum =
        (m.map fun p => p.2 * gf p.1).sum +
          (taken.map fun it => it.realCount * gf it.originalCouponId).sum := by
  intro taken
  induction taken with
  | nil => intro m hm; simp
  | cons it rest ih =>
    intro m hm
    rw [List.foldl_cons, ih _ (nodup_keysOf_addUsage hm _ _),
      map_addUsage_sum gf hm, List.map_cons, List.sum_cons]
    omega

/-! ## Facts about the filtered coupons and the pseudo-item list -/

theorem validCoupons_sublist (coupons : List Coupon) (P : ℚ) :
    (validCoupons coupons P).Sublist coupons :=
  List.filter_sublist coupons

theorem mem_validCoupons {coupons : List Coupon} {P : ℚ} {c : Coupon}
    (hc : c ∈ validCoupons coupons P) :
    c ∈ coupons ∧ 0 < c.count ∧ 0 < c.threshold ∧ 0 < c.discount ∧
      couponCost c ≤ wLimit P := by
  have h1 := List.mem_of_mem_filter hc
  have h2 := List.of_mem_filter hc
  simp only [isValid, Bool.and_eq_true, decide_eq_true_eq] at h2
  exact ⟨h1, by tauto, by tauto, by tauto, by tauto⟩

theorem validCoupons_ids_nodup {coupons : List Coupon} (P : ℚ)
    (hnd : (coupons.map Coupon.id).Nodup) :
    ((validCoupons coupons P).map Coupon.id).Nodup :=
  hnd.sublist ((validCoupons_sublist coupons P).map Coupon.id)

theorem mem_dpItems {coupons : List Coupon} {P : ℚ} {it : Item}
    (h : it ∈ dpItems coupons P) :
    ∃ c ∈ validCoupons coupons P, ∃ q ∈ expandCounts c.count,
      it = ⟨itemCost (gcdFactor coupons P) c * q, couponVal c * q, c.id, q⟩ := by
  rw [dpItems] at h
  obtain ⟨c, hc, hit⟩ := List.mem_flatMap.mp h
  rw [couponItems] at hit
  obtain ⟨q, hq, rfl⟩ := List.mem_map.mp hit
  exact ⟨c, hc, q, hq, rfl⟩

theorem dpItems_realCount_pos {coupons : List Coupon} {P : ℚ} {it : Item}
    (h : it ∈ dpItems coupons P) : 0 < it.realCount := by
  obtain ⟨c, _, q, hq, rfl⟩ := mem_dpItems h
  exact expandAux_pos c.count 0 q hq

theorem sumCounts_couponItems_self (g : ℕ) (c : Coupon) :
    sumCounts (couponItems g c) c.id = c.count := by
  rw [couponItems, sumCounts]
  have hfilter : ((expandCounts c.count).map fun q =>
      Item.mk (itemCost g c * q) (couponVal c * q) c.id q).filter
        (fun it => it.originalCouponId = c.id) =
      (expandCounts c.count).map fun q =>
        Item.mk (itemCost g c * q) (couponVal c * q) c.id q := by
    apply List.filter_eq_self.mpr
    intro it hit
    obtain ⟨q, _, rfl⟩ := List.mem_map.mp hit
    simp
  rw [hfilter, List.map_map]
  show ((expandCounts c.count).map fun q : ℕ => q).sum = c.count
  rw [List.map_id', expandCounts_sum]

theorem sumCounts_couponItems_ne (g : ℕ) (c : Coupon) {k : String} (h : c.id ≠ k) :
    sumCounts (couponItems g c) k = 0 := by
  rw [couponItems, sumCounts]
  have hfilter : ((expandCounts c.count).map fun q =>
      Item.mk (itemCost g c * q) (couponVal c * q) c.id q).filter
        (fun it => it.originalCouponId = k) = [] := by
    apply List.filter_eq_nil_iff.mpr
    intro it hit
    obtain ⟨q, _, rfl⟩ := List.mem_map.mp hit
    simpa using h
  rw [hfilter]
  rfl

theorem sumCounts_flatMap_of_ne (g : ℕ) {k : String} :
    ∀ l : List Coupon, (∀ c ∈ l, c.id ≠ k) →
      sumCounts (l.flatMap (couponItems g)) k = 0 := by
  intro l
  induction l with
  | nil => intro _; rfl
  | cons c rest ih =>
    intro h
    rw [List.flatMap_cons, sumCounts_append,
      sumCounts_couponItems_ne g c (h c (List.mem_cons_self _ _)),
      ih fun c' hc' => h c' (List.mem_cons_of_mem _ hc')]

/-- With pairwise-distinct ids, the whole pseudo-item list carries
exactly `c.count` units of coupon `c`. -/
theorem sumCounts_flatMap_self (g : ℕ) :
    ∀ l : List Coupon, (l.map Coupon.id).Nodup → ∀ {c : Coupon}, c ∈ l →
      sumCounts (l.flatMap (couponItems g)) c.id = c.count := by
  intro l
  induction l with
  | nil => intro _ c hc; cases hc
  | cons a rest ih =>
    intro hnd c hc
    simp only [List.map_cons, List.nodup_cons] at hnd
    rw [List.flatMap_cons, sumCounts_append]
    rcases List.mem_cons.mp hc with rfl | hc
    · have hrest : ∀ c' ∈ rest, c'.id ≠ c.id := by
        intro c' hc' he
        apply hnd.1
        have hmem : c'.id ∈ List.map Coupon.id rest := List.mem_map_of_mem Coupon.id hc'
        rwa [he] at hmem
      rw [sumCounts_couponItems_self, sumCounts_flatMap_of_ne g rest hrest, Nat.add_zero]
    · have hne : a.id ≠ c.id := by
        intro he
        exact hnd.1 (he ▸ List.mem_map_of_mem Coupon.id hc)
      rw [sumCounts_couponItems_ne g a hne, ih hnd.2 hc, Nat.zero_add]

theorem coupon_unique {coupons : List Coupon} (hnd : (coupons.map Coupon.id).Nodup)
    {c c' : Coupon} (hc : c ∈ coupons) (hc' : c' ∈ coupons) (he : c.id = c'.id) :
    c = c' :=
  List.inj_on_of_nodup_map hnd hc hc' he

theorem find?_coupon_self :
    ∀ (coupons : List Coupon), (coupons.map Coupon.id).Nodup →
      ∀ {c : Coupon}, c ∈ coupons → (coupons.find? fun c' => c'.id = c.id) = some c := by
  intro coupons
  induction coupons with
  | nil => intro _ c hc; cases hc
  | cons a rest ih =>
    intro hnd c hc
    simp only [List.map_cons, List.nodup_cons] at hnd
    rcases List.mem_cons.mp hc with rfl | hc
    · rw [List.find?_cons_of_pos _ (by simp)]
    · have hne : ¬ a.id = c.id := by
        intro he
        exact hnd.1 (he ▸ List.mem_map_of_mem Coupon.id hc)
      rw [List.find?_cons_of_neg _ (by simpa using hne)]
      exact ih hnd.2 hc

/-! ## The effective divisor and scaled-cost bookkeeping -/

/-- The factor by which costs and capacity were divided (1 when the
reduction is skipped). -/
def dEff (coupons : List Coupon) (P : ℚ) : ℕ :=
  if 1 < gcdFactor coupons P then gcdFactor coupons P else 1

theorem dEff_mul_reducedW (coupons : List Coupon) (P : ℚ) :
    dEff coupons P * reducedW coupons P = wLimit P := by
  rw [dEff, reducedW]
  by_cases h : 1 < gcdFactor coupons P
  · rw [if_pos h, if_pos h]
    exact Nat.mul_div_cancel' (gcdFactor_dvd_wLimit coupons P) ..
  · rw [if_neg h, if_neg h, Nat.one_mul]

theorem dEff_mul_itemCost {coupons : List Coupon} {P : ℚ} {c : Coupon}
    (hc : c ∈ validCoupons coupons P) :
    dEff coupons P * itemCost (gcdFactor coupons P) c = couponCost c := by
  rw [dEff, itemCost]
  by_cases h : 1 < gcdFactor coupons P
  · rw [if_pos h, if_pos h]
    exact Nat.mul_div_cancel' (gcdFactor_dvd_cost coupons P hc) ..
  · rw [if_neg h, if_neg h, Nat.one_mul]

/-- Scaled threshold of the coupon bearing a given id (0 if none). -/
def couponCostOf (coupons : List Coupon) (k : String) : ℕ :=
  (((coupons.find? fun c => c.id = k).map couponCost)).getD 0

/-- Threshold (in currency) of the coupon bearing a given id (0 if none). -/
def thresholdOf (coupons : List Coupon) (k : String) : ℚ :=
  (((coupons.find? fun c => c.id = k).map Coupon.threshold)).getD 0

theorem couponCostOf_id {coupons : List Coupon} (hnd : (coupons.map Coupon.id).Nodup)
    {c : Coupon} (hc : c ∈ coupons) : couponCostOf coupons c.id = couponCost c := by
  rw [couponCostOf, find?_coupon_self coupons hnd hc]
  rfl

/-- Sum of `usage.count × scaled threshold` over a solution. -/
def solutionScaledCostSum (coupons : List Coupon) (sol : List CouponUsage) : ℕ :=
  (sol.map fun u => u.count * couponCostOf coupons u.couponId).sum

/-- Sum of `usage.count × threshold` (unscaled currency) over a solution. -/
def solutionThresholdSum (coupons : List Coupon) (sol : List CouponUsage) : ℚ :=
  (sol.map fun u => (u.count : ℚ) * thresholdOf coupons u.couponId).sum

theorem sum_map_scaled (a : ℕ) (l : List Item) :
    (l.map fun it => a * it.cost).sum = a * costSum l := by
  induction l with
  | nil => simp [costSum]
  | cons x t ih => simp [costSum, ih, Nat.mul_add]

/-! ## Branch equations of `calculateOptimization` -/

theorem calc_empty {coupons : List Coupon} {P : ℚ} (h : coupons = [] ∨ P ≤ 0) :
    calculateOptimization coupons P =
      { totalOriginal := P, totalDiscount := 0, finalPrice := P,
        solution := [], warning := none } := by
  rw [calculateOptimization, if_pos h]

theorem calc_trivial {coupons : List Coupon} {P : ℚ} (h1 : ¬(coupons = [] ∨ P ≤ 0))
    (h2 : totalPossibleCost coupons P ≤ wLimit P) :
    calculateOptimization coupons P = trivialResult coupons P := by
  rw [calculateOptimization, if_neg h1, if_pos h2]

theorem calc_warning {coupons : List Coupon} {P : ℚ} (h1 : ¬(coupons = [] ∨ P ≤ 0))
    (h2 : ¬ totalPossibleCost coupons P ≤ wLimit P)
    (h3 : MAX_SLOTS < reducedW coupons P) :
    calculateOptimization coupons P =
      { totalOriginal := P, totalDiscount := 0, finalPrice := P,
        solution := [], warning := some warningText } := by
  rw [calculateOptimization, if_neg h1, if_neg h2, if_pos h3]

theorem calc_dp {coupons : List Coupon} {P : ℚ} (h1 : ¬(coupons = [] ∨ P ≤ 0))
    (h2 : ¬ totalPossibleCost coupons P ≤ wLimit P)
    (h3 : ¬ MAX_SLOTS < reducedW coupons P) :
    calculateOptimization coupons P = dpResult coupons P := by
  rw [calculateOptimization, if_neg h1, if_neg h2, if_neg h3]

/-! ## The master optimality theorem for the DP stage -/

/-- The reduced triples are the original triples with costs divided. -/
theorem triples_reduce_eq (coupons : List Coupon) (P : ℚ)
    (h : 1 < gcdFactor coupons P) :
    ((validCoupons coupons P).map fun c =>
        (itemCost (gcdFactor coupons P) c, couponVal c, c.count)) =
      (((validCoupons coupons P).map fun c => (couponCost c, couponVal c, c.count)).map
        fun t => (t.1 / gcdFactor coupons P, t.2.1, t.2.2)) := by
  rw [List.map_map]
  apply List.map_congr_left
  intro c _
  simp [itemCost, if_pos h]

/-- The gcd division of costs and capacity leaves the bounded-knapsack
optimum over the valid coupons unchanged. -/
theorem tripleBest_reduced_eq (coupons : List Coupon) (P : ℚ) :
    tripleBestD (fun _ => 0) ((validCoupons coupons P).map fun c =>
        (itemCost (gcdFactor coupons P) c, couponVal c, c.count)) (reducedW coupons P) =
      tripleBestD (fun _ => 0) ((validCoupons coupons P).map fun c =>
        (couponCost c, couponVal c, c.count)) (wLimit P) := by
  by_cases h : 1 < gcdFactor coupons P
  · rw [triples_reduce_eq coupons P h, reducedW, if_pos h]
    apply tripleBestD_reduce (by omega)
    · intro t ht
      obtain ⟨c, hc, rfl⟩ := List.mem_map.mp ht
      exact gcdFactor_dvd_cost coupons P hc
    · exact gcdFactor_dvd_wLimit coupons P
  · rw [reducedW, if_neg h]
    congr 1
    apply List.map_congr_left
    intro c _
    simp [itemCost, if_neg h]

/-- The idealized DP table at the reduced capacity holds the
brute-force optimum over the valid coupons at the unreduced scaled
capacity. -/
theorem dpRunN_eq_bruteForceMax (coupons : List Coupon) (P : ℚ) :
    dpRunN (dpItems coupons P) (reducedW coupons P) =
      bruteForceMax ((validCoupons coupons P).map fun c => (couponCost c, couponVal c, c.count))
        (wLimit P) := by
  rw [dpRunN_eq_bestWith, dpItems, bestWith_flatMap, ← tripleBest_eq_bruteForceMax]
  exact tripleBest_reduced_eq coupons P

theorem valSum_append (l1 l2 : List Item) : valSum (l1 ++ l2) = valSum l1 + valSum l2 := by
  simp [valSum]

theorem valSum_couponItems (g : ℕ) (c : Coupon) :
    valSum (couponItems g c) = couponVal c * c.count := by
  rw [couponItems, couponItems_valSum, expandCounts_sum]

theorem valSum_flatMap (g : ℕ) : ∀ l : List Coupon,
    valSum (l.flatMap (couponItems g)) = (l.map fun c => couponVal c * c.count).sum := by
  intro l
  induction l with
  | nil => rfl
  | cons c rest ih =>
    rw [List.flatMap_cons, valSum_append, valSum_couponItems, List.map_cons,
      List.sum_cons, ih]

/-- Total value carried by the pseudo-items: the summed scaled
discounts of the valid coupons. -/
theorem valSum_dpItems (coupons : List Coupon) (P : ℚ) :
    valSum (dpItems coupons P) =
      ((validCoupons coupons P).map fun c => couponVal c * c.count).sum :=
  valSum_flatMap (gcdFactor coupons P) (validCoupons coupons P)

/-- The valid coupons' total scaled discount is at most the whole
input's. -/
theorem valid_discount_total_le (coupons : List Coupon) (P : ℚ) :
    ((validCoupons coupons P).map fun c => couponVal c * c.count).sum ≤
      (coupons.map fun c => couponVal c * c.count).sum :=
  sublist_sum_le ((validCoupons_sublist coupons P).map _)

theorem bruteForceMax_nil (w : ℕ) : bruteForceMax [] w = 0 := by
  simp [bruteForceMax, usageVectors, selCost, selVal]

theorem validCoupons_eq_filter_cost {coupons : List Coupon} {P : ℚ}
    (hc : ∀ c ∈ coupons, 0 < c.count ∧ 0 < c.threshold ∧ 0 < c.discount) :
    validCoupons coupons P = coupons.filter fun c => couponCost c ≤ wLimit P := by
  apply List.filter_congr
  intro c hcm
  obtain ⟨h1, h2, h3⟩ := hc c hcm
  simp only [isValid]
  rw [decide_eq_decide]
  tauto

theorem filter_map_comm_triples (l : List Coupon) (P : ℚ) :
    ((l.map fun c => (couponCost c, couponVal c, c.count)).filter fun t => t.1 ≤ wLimit P) =
      ((l.filter fun c => couponCost c ≤ wLimit P).map fun c =>
        (couponCost c, couponVal c, c.count)) := by
  induction l with
  | nil => rfl
  | cons c rest ih =>
    by_cases h : couponCost c ≤ wLimit P <;>
      simp [List.filter_cons, h, ih]

/-- Coupons whose threshold alone is unaffordable contribute nothing:
the brute-force optimum over the valid coupons equals the one over all
(positively-valued) input coupons. -/
theorem bruteForce_valid_eq_all (coupons : List Coupon) (P : ℚ)
    (hc : ∀ c ∈ coupons, 0 < c.count ∧ 0 < c.threshold ∧ 0 < c.discount) :
    bruteForceMax ((validCoupons coupons P).map fun c => (couponCost c, couponVal c, c.count))
        (wLimit P) =
      bruteForceMax (coupons.map fun c => (couponCost c, couponVal c, c.count)) (wLimit P) := by
  rw [← tripleBest_eq_bruteForceMax, ← tripleBest_eq_bruteForceMax,
    validCoupons_eq_filter_cost hc, ← filter_map_comm_triples]
  exact tripleBest_filter_affordable _ (wLimit P) (le_refl _)

/-! ## Solution-side facts for the DP branch -/

theorem mem_takenItems {items : List Item} {w : ℕ} {it : Item}
    (h : it ∈ takenItems items w) : it ∈ items :=
  List.mem_reverse.mp ((walkRev_sublist items.reverse w).subset h)

theorem sumCounts_taken_le (items : List Item) (w : ℕ) (k : String) :
    sumCounts (takenItems items w) k ≤ sumCounts items k :=
  le_trans (sumCounts_sublist (walkRev_sublist items.reverse w) k)
    (le_of_eq (sumCounts_reverse items k))

theorem realCount_le_sumCounts {l : List Item} {it : Item} (h : it ∈ l)
    {k : String} (hk : it.originalCouponId = k) : it.realCount ≤ sumCounts l k := by
  apply List.le_sum_of_mem
  exact List.mem_map_of_mem Item.realCount (List.mem_filter.mpr ⟨h, by simpa using hk⟩)

theorem dpResult_solution_eq (coupons : List Coupon) (P : ℚ) :
    (dpResult coupons P).solution =
      (usageMap (takenItems (dpItems coupons P) (reducedW coupons P))).map
        fun p => { couponId := p.1, count := p.2 } := rfl

/-- Every entry of the DP-branch solution is the accumulated taken
quantity of its coupon id, and its id occurs among the taken items. -/
theorem dp_entry_facts {coupons : List Coupon} {P : ℚ} {u : CouponUsage}
    (hu : u ∈ (dpResult coupons P).solution) :
    u.count = sumCounts (takenItems (dpItems coupons P) (reducedW coupons P)) u.couponId ∧
      ∃ it ∈ takenItems (dpItems coupons P) (reducedW coupons P),
        it.originalCouponId = u.couponId := by
  rw [dpResult_solution_eq] at hu
  obtain ⟨p, hp, rfl⟩ := List.mem_map.mp hu
  have hnodup : (keysOf (usageMap (takenItems (dpItems coupons P) (reducedW coupons P)))).Nodup :=
    nodup_keysOf_foldl_addUsage _ [] (by simp [keysOf])
  have hval : p.2 = sumCounts (takenItems (dpItems coupons P) (reducedW coupons P)) p.1 := by
    have h1 := entry_eq_lookupVal _ hnodup hp
    rw [usageMap, lookupVal_foldl_addUsage] at h1
    simpa [lookupVal] using h1
  constructor
  · exact hval
  · have hk : p.1 ∈ keysOf (usageMap (takenItems (dpItems coupons P) (reducedW coupons P))) :=
      mem_keysOf_of_mem hp
    rw [usageMap, mem_keysOf_foldl_addUsage] at hk
    rcases hk with hk | hk
    · simp [keysOf] at hk
    · exact hk

/-! ## Claim theorems -/

/-- C2 (amended): when the input's total scaled discount stays below
`2^31` (so no `Int32Array` store wraps), `totalDiscount ≥ 0` and
`finalPrice = totalOriginal − totalDiscount` hold exactly; the claim's
conjunct `finalPrice ≥ 0` and its unbounded-input form are refuted by
`claim2_counterexample` (discount above the cart total, respectively
32-bit overflow). -/
theorem claim2_discount_nonneg_final_exact (coupons : List Coupon) (P : ℚ)
    (hof : (coupons.map fun c => couponVal c * c.count).sum < 2 ^ 31) :
    0 ≤ (calculateOptimization coupons P).totalDiscount ∧
      (calculateOptimization coupons P).finalPrice =
        (calculateOptimization coupons P).totalOriginal -
          (calculateOptimization coupons P).totalDiscount := by
  by_cases h1 : coupons = [] ∨ P ≤ 0
  · rw [calc_empty h1]
    exact ⟨le_refl 0, by norm_num⟩
  · by_cases h2 : totalPossibleCost coupons P ≤ wLimit P
    · rw [calc_trivial h1 h2]
      refine ⟨?_, rfl⟩
      show (0 : ℚ) ≤ ((((validCoupons coupons P).map fun c => couponVal c * c.count).sum : ℕ) : ℚ) / 100
      positivity
    · by_cases h3 : MAX_SLOTS < reducedW coupons P
      · rw [calc_warning h1 h2 h3]
        exact ⟨le_refl 0, by norm_num⟩
      · rw [calc_dp h1 h2 h3]
        refine ⟨?_, rfl⟩
        show (0 : ℚ) ≤ ((dpRun (dpItems coupons P) (reducedW coupons P) : ℤ) : ℚ) / 100
        have hb : valSum (dpItems coupons P) < 2 ^ 31 := by
          rw [valSum_dpItems]
          exact lt_of_le_of_lt (valid_discount_total_le coupons P) hof
        rw [dpRun_eq_dpRunN _ hb]
        push_cast
        positivity

/-- C2 counterexample, both failing conjuncts of the original claim at
explicit inputs: a coupon whose discount exceeds the cart total drives
`finalPrice` negative (cart 100, coupon {50, 500, 1} → −400), and a
coupon whose scaled discount overflows 32 bits drives `totalDiscount`
itself negative (cart 100, coupon {60, 3·10⁷, 2} reaches the DP, stores
ToInt32(3·10⁹) = −1294967296, discount −12949672.96). -/
theorem claim2_counterexample :
    (calculateOptimization [⟨"a", 50, 500, 1⟩] 100).finalPrice < 0 ∧
      (calculateOptimization [⟨"b", 60, 30000000, 2⟩] 100).totalDiscount < 0 := by
  constructor
  · with_unfolding_all decide
  · with_unfolding_all decide

theorem claim2_witness :
    (([⟨"c1", 50, 10, 1⟩, ⟨"c2", 60, 15, 1⟩] : List Coupon).map fun c =>
        couponVal c * c.count).sum < 2 ^ 31 ∧
      0 ≤ (calculateOptimization [⟨"c1", 50, 10, 1⟩, ⟨"c2", 60, 15, 1⟩] 100).totalDiscount ∧
        (calculateOptimization [⟨"c1", 50, 10, 1⟩, ⟨"c2", 60, 15, 1⟩] 100).finalPrice =
          (calculateOptimization [⟨"c1", 50, 10, 1⟩, ⟨"c2", 60, 15, 1⟩] 100).totalOriginal -
            (calculateOptimization [⟨"c1", 50, 10, 1⟩, ⟨"c2", 60, 15, 1⟩] 100).totalDiscount :=
  ⟨by with_unfolding_all decide,
    claim2_discount_nonneg_final_exact _ _ (by with_unfolding_all decide)⟩

/-- C3 counterexample: on Scenario A the optimizer does NOT return
`totalDiscount = 10` — the second coupon alone (threshold 60 ≤ 100,
discount 15) beats the first. -/
theorem claim3_counterexample :
    (calculateOptimization [⟨"c1", 50, 10, 1⟩, ⟨"c2", 60, 15, 1⟩] 100).totalDiscount ≠ 10 := by
  with_unfolding_all decide

/-- C3 (amended): on Scenario A the optimal selection is the second
coupon only, with `totalDiscount = 15` and `finalPrice = 85`. -/
theorem claim3_scenarioA :
    calculateOptimization [⟨"c1", 50, 10, 1⟩, ⟨"c2", 60, 15, 1⟩] 100 =
      { totalOriginal := 100, totalDiscount := 15, finalPrice := 85,
        solution := [{ couponId := "c2", count := 1 }], warning := none } := by
  with_unfolding_all decide

/-- C5: when the summed scaled cost of all eligible coupons fits in the
scaled cart total, the result is the trivial one: every eligible coupon
at its full count, the discount the direct sum, no DP involved. -/
theorem claim5_trivial_case (coupons : List Coupon) (P : ℚ) (hP : 0 < P)
    (htriv : totalPossibleCost coupons P ≤ wLimit P) :
    calculateOptimization coupons P = trivialResult coupons P ∧
      (calculateOptimization coupons P).solution =
        (validCoupons coupons P).map (fun c => { couponId := c.id, count := c.count }) ∧
      (calculateOptimization coupons P).totalDiscount =
        ((((validCoupons coupons P).map fun c => couponVal c * c.count).sum : ℕ) : ℚ) / 100 := by
  have hmain : calculateOptimization coupons P = trivialResult coupons P := by
    by_cases hc : coupons = []
    · subst hc
      rw [calc_empty (Or.inl rfl), trivialResult]
      simp [validCoupons]
    · refine calc_trivial ?_ htriv
      rintro (h | h)
      · exact hc h
      · exact absurd hP (not_lt.mpr h)
  exact ⟨hmain, by rw [hmain]; rfl, by rw [hmain]; rfl⟩

theorem claim5_witness :
    (0 : ℚ) < 10 ∧ totalPossibleCost [⟨"a", 5, 1, 1⟩] 10 ≤ wLimit 10 ∧
      (calculateOptimization [⟨"a", 5, 1, 1⟩] 10).solution =
        [{ couponId := "a", count := 1 }] := by
  refine ⟨by norm_num, by with_unfolding_all decide, ?_⟩
  rw [(claim5_trivial_case [⟨"a", 5, 1, 1⟩] 10 (by norm_num) (by with_unfolding_all decide)).2.1]
  with_unfolding_all decide

/-- C6: the warning is present exactly when the input passes the empty
and trivial checks and the reduced capacity exceeds `MAX_SLOTS`
(5,000,000); in that case the result has zero discount, unchanged
price and an empty solution. -/
theorem claim6_warning_iff (coupons : List Coupon) (P : ℚ) :
    MAX_SLOTS = 5000000 ∧
      ((calculateOptimization coupons P).warning ≠ none ↔
        ¬(coupons = [] ∨ P ≤ 0) ∧ wLimit P < totalPossibleCost coupons P ∧
          MAX_SLOTS < reducedW coupons P) ∧
      ((calculateOptimization coupons P).warning ≠ none →
        calculateOptimization coupons P =
          { totalOriginal := P, totalDiscount := 0, finalPrice := P,
            solution := [], warning := some warningText }) := by
  refine ⟨rfl, ?_⟩
  by_cases h1 : coupons = [] ∨ P ≤ 0
  · rw [calc_empty h1]
    constructor
    · constructor
      · intro h; exact absurd rfl h
      · rintro ⟨h, -⟩; exact absurd h1 h
    · intro h; exact absurd rfl h
  · by_cases h2 : totalPossibleCost coupons P ≤ wLimit P
    · rw [calc_trivial h1 h2]
      have hwarn : (trivialResult coupons P).warning = none := rfl
      constructor
      · constructor
        · intro h; exact absurd hwarn h
        · rintro ⟨-, h, -⟩; exact absurd h2 (not_le.mpr h)
      · intro h; exact absurd hwarn h
    · by_cases h3 : MAX_SLOTS < reducedW coupons P
      · rw [calc_warning h1 h2 h3]
        constructor
        · constructor
          · intro _; exact ⟨h1, not_le.mp h2, h3⟩
          · intro _; simp
        · intro _; rfl
      · rw [calc_dp h1 h2 h3]
        have hwarn : (dpResult coupons P).warning = none := rfl
        constructor
        · constructor
          · intro h; exact absurd hwarn h
          · rintro ⟨-, -, h⟩; exact absurd h h3
        · intro h; exact absurd hwarn h

theorem claim6_witness :
    calculateOptimization [⟨"a", 6000001 / 100, 10, 2⟩] (10000001 / 100) =
      { totalOriginal := 10000001 / 100, totalDiscount := 0,
        finalPrice := 10000001 / 100, solution := [],
        warning := some warningText } :=
  (claim6_warning_iff [⟨"a", 6000001 / 100, 10, 2⟩] (10000001 / 100)).2.2
    (by with_unfolding_all decide)

/-- C8: the expander emits doubling powers `1, 2, 4, …` while their
running sum stays within the count, then the non-zero remainder, and
the subset sums of the emitted quantities are exactly `{0, …, c}`. -/
theorem claim8_binary_decomposition (c : ℕ) (hc : 0 < c) :
    (∃ j r, expandCounts c = ((List.range j).map fun i => 2 ^ i) ++
        (if r = 0 then [] else [r]) ∧ c + 1 = 2 ^ j + r ∧ r < 2 ^ j) ∧
      ∀ q, (∃ s : List ℕ, s.Sublist (expandCounts c) ∧ s.sum = q) ↔ q ≤ c := by
  constructor
  · obtain ⟨j, r, hlist, hsum, hlt⟩ := expandAux_pattern c 0
    refine ⟨j, r, ?_, by simpa using hsum, by simpa using hlt⟩
    rw [expandCounts, hlist]
    congr 1
    apply List.map_congr_left
    intro i _
    rw [Nat.zero_add]
  · intro q
    constructor
    · rintro ⟨s, hs, rfl⟩
      exact expandCounts_sound hs
    · intro hq
      exact expandCounts_complete q hq

theorem claim8_witness :
    (∃ j r, expandCounts 5 = ((List.range j).map fun i => 2 ^ i) ++
        (if r = 0 then [] else [r]) ∧ 5 + 1 = 2 ^ j + r ∧ r < 2 ^ j) ∧
      ∀ q, (∃ s : List ℕ, s.Sublist (expandCounts 5) ∧ s.sum = q) ↔ q ≤ 5 :=
  claim8_binary_decomposition 5 (by decide)

/-- C1 (amended): for small inputs (≤ 4 coupons, counts ≤ 3, positive
fields, positive cart total) WHOSE REDUCED CAPACITY PASSES THE
`MAX_SLOTS` GUARD and whose total scaled discount stays below `2^31`
(no `Int32Array` store wraps), the returned `totalDiscount` (scaled to
cents) equals the brute-force maximum over all feasible selections.
Without the guard hypothesis the claim fails (`claim1_counterexample`);
without the overflow bound the stored optimum wraps (e.g. discount 10⁸
on two 60-threshold uses stores ToInt32(10¹⁰) = 1410065408 ≠ 10¹⁰). -/
theorem claim1_optimality (coupons : List Coupon) (P : ℚ)
    (hlen : coupons.length ≤ 4)
    (hc : ∀ c ∈ coupons, 0 < c.count ∧ c.count ≤ 3 ∧ 0 < c.threshold ∧ 0 < c.discount)
    (hP : 0 < P)
    (hguard : reducedW coupons P ≤ MAX_SLOTS)
    (hof : (coupons.map fun c => couponVal c * c.count).sum < 2 ^ 31) :
    (calculateOptimization coupons P).totalDiscount * 100 =
      ((bruteForceMax (coupons.map fun c => (couponCost c, couponVal c, c.count))
        (wLimit P) : ℕ) : ℚ) := by
  have hc' : ∀ c ∈ coupons, 0 < c.count ∧ 0 < c.threshold ∧ 0 < c.discount :=
    fun c h => ⟨(hc c h).1, (hc c h).2.2.1, (hc c h).2.2.2⟩
  rw [← bruteForce_valid_eq_all coupons P hc']
  by_cases h1 : coupons = [] ∨ P ≤ 0
  · rcases h1 with h1 | h1
    · subst h1
      rw [calc_empty (Or.inl rfl)]
      show (0 : ℚ) * 100 = _
      simp [validCoupons, bruteForceMax_nil]
    · exact absurd hP (not_lt.mpr h1)
  · by_cases h2 : totalPossibleCost coupons P ≤ wLimit P
    · rw [calc_trivial h1 h2]
      show ((((validCoupons coupons P).map fun c => couponVal c * c.count).sum : ℕ) : ℚ) /
          100 * 100 = _
      rw [div_mul_cancel₀ _ (by norm_num : (100 : ℚ) ≠ 0)]
      norm_cast
      rw [bruteForceMax_trivial]
      · rw [List.map_map]
        rfl
      · rw [List.map_map]
        exact h2
    · by_cases h3 : MAX_SLOTS < reducedW coupons P
      · exact absurd h3 (not_lt.mpr hguard)
      · rw [calc_dp h1 h2 h3]
        show ((dpRun (dpItems coupons P) (reducedW coupons P) : ℤ) : ℚ) / 100 * 100 = _
        rw [div_mul_cancel₀ _ (by norm_num : (100 : ℚ) ≠ 0)]
        have hb : valSum (dpItems coupons P) < 2 ^ 31 := by
          rw [valSum_dpItems]
          exact lt_of_le_of_lt (valid_discount_total_le coupons P) hof
        rw [dpRun_eq_dpRunN _ hb]
        exact_mod_cast dpRunN_eq_bruteForceMax coupons P

/-- C1 counterexample: one coupon (threshold 60000.01, discount 10,
count 2), cart total 100000.01 — the gcd reduction achieves nothing,
the guard fires (capacity 10000001 > 5000000), the optimizer returns 0,
yet one use of the coupon is feasible with discount 10. -/
theorem claim1_counterexample :
    ¬ ((calculateOptimization [⟨"a", 6000001 / 100, 10, 2⟩] (10000001 / 100)).totalDiscount *
        100 =
      ((bruteForceMax (([⟨"a", 6000001 / 100, 10, 2⟩] : List Coupon).map fun c =>
        (couponCost c, couponVal c, c.count)) (wLimit (10000001 / 100)) : ℕ) : ℚ)) := by
  with_unfolding_all decide

theorem claim1_witness :
    ([⟨"c1", 50, 10, 1⟩, ⟨"c2", 60, 15, 1⟩] : List Coupon).length ≤ 4 ∧
      (calculateOptimization [⟨"c1", 50, 10, 1⟩, ⟨"c2", 60, 15, 1⟩] 100).totalDiscount * 100 =
        ((bruteForceMax (([⟨"c1", 50, 10, 1⟩, ⟨"c2", 60, 15, 1⟩] : List Coupon).map fun c =>
          (couponCost c, couponVal c, c.count)) (wLimit 100) : ℕ) : ℚ) :=
  ⟨by decide,
    claim1_optimality _ _ (by decide) (by with_unfolding_all decide) (by norm_num)
      (by with_unfolding_all decide) (by with_unfolding_all decide)⟩

/-- C9: with `g` the gcd of the scaled capacity and every valid
coupon's scaled threshold (seeded with the capacity), dividing the
capacity and all costs by `g` leaves the brute-force knapsack optimum
unchanged. -/
theorem claim9_gcd_reduction (coupons : List Coupon) (P : ℚ) (hP : 0 < P)
    (hdp : wLimit P < totalPossibleCost coupons P) :
    bruteForceMax ((validCoupons coupons P).map fun c =>
        (itemCost (gcdFactor coupons P) c, couponVal c, c.count)) (reducedW coupons P) =
      bruteForceMax ((validCoupons coupons P).map fun c =>
        (couponCost c, couponVal c, c.count)) (wLimit P) := by
  rw [← tripleBest_eq_bruteForceMax, ← tripleBest_eq_bruteForceMax]
  exact tripleBest_reduced_eq coupons P

theorem claim9_witness :
    bruteForceMax ((validCoupons [⟨"c1", 50, 10, 1⟩, ⟨"c2", 60, 15, 1⟩] 100).map fun c =>
        (itemCost (gcdFactor [⟨"c1", 50, 10, 1⟩, ⟨"c2", 60, 15, 1⟩] 100) c,
          couponVal c, c.count))
      (reducedW [⟨"c1", 50, 10, 1⟩, ⟨"c2", 60, 15, 1⟩] 100) =
      bruteForceMax ((validCoupons [⟨"c1", 50, 10, 1⟩, ⟨"c2", 60, 15, 1⟩] 100).map fun c =>
        (couponCost c, couponVal c, c.count))
        (wLimit 100) :=
  claim9_gcd_reduction _ _ (by norm_num) (by with_unfolding_all decide)

/-- C4 (amended): for positive cart totals and pairwise-distinct
coupon ids, the selection respects the capacity in SCALED integer
cents: `Σ usage.count × round(100·threshold) ≤ round(100·cartTotal)`.
The claim's unscaled form `Σ usage.count × threshold ≤ cartTotal` is
refuted by `claim4_counterexample` (rounding). -/
theorem claim4_scaled_capacity (coupons : List Coupon) (P : ℚ) (hP : 0 < P)
    (hnd : (coupons.map Coupon.id).Nodup) :
    solutionScaledCostSum coupons (calculateOptimization coupons P).solution ≤ wLimit P := by
  by_cases h1 : coupons = [] ∨ P ≤ 0
  · rw [calc_empty h1]
    simp [solutionScaledCostSum]
  · by_cases h2 : totalPossibleCost coupons P ≤ wLimit P
    · rw [calc_trivial h1 h2]
      show solutionScaledCostSum coupons ((validCoupons coupons P).map fun c =>
        { couponId := c.id, count := c.count }) ≤ wLimit P
      rw [solutionScaledCostSum, List.map_map]
      have hmap : ((validCoupons coupons P).map
          ((fun u => u.count * couponCostOf coupons u.couponId) ∘ fun c =>
            ({ couponId := c.id, count := c.count } : CouponUsage))) =
          (validCoupons coupons P).map fun c => couponCost c * c.count := by
        apply List.map_congr_left
        intro c hcv
        show c.count * couponCostOf coupons c.id = couponCost c * c.count
        rw [couponCostOf_id hnd (mem_validCoupons hcv).1, Nat.mul_comm]
      rw [hmap]
      exact h2
    · by_cases h3 : MAX_SLOTS < reducedW coupons P
      · rw [calc_warning h1 h2 h3]
        simp [solutionScaledCostSum]
      · rw [calc_dp h1 h2 h3, dpResult_solution_eq, solutionScaledCostSum, List.map_map]
        show (((usageMap (takenItems (dpItems coupons P) (reducedW coupons P))).map
          fun p => p.2 * couponCostOf coupons p.1)).sum ≤ wLimit P
        rw [usageMap, map_foldl_addUsage_sum (couponCostOf coupons) _ [] (by simp [keysOf])]
        simp only [List.map_nil, List.sum_nil, Nat.zero_add]
        have hpoint : ∀ it ∈ takenItems (dpItems coupons P) (reducedW coupons P),
            it.realCount * couponCostOf coupons it.originalCouponId =
              dEff coupons P * it.cost := by
          intro it hit
          obtain ⟨c, hcv, q, hq, rfl⟩ := mem_dpItems (mem_takenItems hit)
          show q * couponCostOf coupons c.id =
            dEff coupons P * (itemCost (gcdFactor coupons P) c * q)
          rw [couponCostOf_id hnd (mem_validCoupons hcv).1, ← dEff_mul_itemCost hcv]
          ring
        rw [List.map_congr_left hpoint, sum_map_scaled]
        calc dEff coupons P * costSum (takenItems (dpItems coupons P) (reducedW coupons P))
            ≤ dEff coupons P * reducedW coupons P :=
              Nat.mul_le_mul_left _ (walkRev_cost _ _)
          _ = wLimit P := dEff_mul_reducedW coupons P

/-- C4 counterexample: cart total 5, one coupon with threshold 0.054
(rounded to 5 cents) and count 100 — all 100 uses are accepted, and the
unscaled threshold sum is 5.4 > 5. -/
theorem claim4_counterexample :
    ¬ (solutionThresholdSum [⟨"a", 27 / 500, 1, 100⟩]
        (calculateOptimization [⟨"a", 27 / 500, 1, 100⟩] 5).solution ≤ 5) := by
  with_unfolding_all decide

theorem claim4_witness :
    solutionScaledCostSum [⟨"a", 50, 10, 1⟩]
        (calculateOptimization [⟨"a", 50, 10, 1⟩] 100).solution ≤ wLimit 100 :=
  claim4_scaled_capacity [⟨"a", 50, 10, 1⟩] 100 (by norm_num) (by decide)

/-- C7 (amended): for inputs with positive counts AND pairwise-distinct
ids, every solution entry has `1 ≤ usage.count` (zero-usage coupons are
omitted) and `usage.count` bounded by the count of the coupon bearing
that id.  With duplicate ids aggregation can exceed the bound: see
`claim7_counterexample`. -/
theorem claim7_usage_bounds (coupons : List Coupon) (P : ℚ)
    (hpos : ∀ c ∈ coupons, 0 < c.count)
    (hnd : (coupons.map Coupon.id).Nodup) :
    ∀ u ∈ (calculateOptimization coupons P).solution,
      1 ≤ u.count ∧ ∀ c ∈ coupons, c.id = u.couponId → u.count ≤ c.count := by
  by_cases h1 : coupons = [] ∨ P ≤ 0
  · rw [calc_empty h1]
    intro u hu
    simp at hu
  · by_cases h2 : totalPossibleCost coupons P ≤ wLimit P
    · rw [calc_trivial h1 h2]
      intro u hu
      have hu' : u ∈ (validCoupons coupons P).map fun c =>
          ({ couponId := c.id, count := c.count } : CouponUsage) := hu
      obtain ⟨c, hcv, rfl⟩ := List.mem_map.mp hu'
      obtain ⟨hcm, hcnt, -, -, -⟩ := mem_validCoupons hcv
      refine ⟨hcnt, ?_⟩
      intro c' hc' he
      have hceq : c' = c := coupon_unique hnd hc' hcm he
      rw [hceq]
    · by_cases h3 : MAX_SLOTS < reducedW coupons P
      · rw [calc_warning h1 h2 h3]
        intro u hu
        simp at hu
      · rw [calc_dp h1 h2 h3]
        intro u hu
        obtain ⟨hval, it, hit, hid⟩ := dp_entry_facts hu
        obtain ⟨c, hcv, q, hq, rfl⟩ := mem_dpItems (mem_takenItems hit)
        have hid' : c.id = u.couponId := hid
        have hq1 : 0 < q := expandAux_pos c.count 0 q hq
        have h4 : q ≤ sumCounts (takenItems (dpItems coupons P) (reducedW coupons P))
            u.couponId := realCount_le_sumCounts hit hid
        constructor
        · rw [hval]
          omega
        · intro c' hc' he
          have hceq : c' = c := by
            apply coupon_unique hnd hc' (mem_validCoupons hcv).1
            rw [he, ← hid']
          rw [hval, hceq]
          calc sumCounts (takenItems (dpItems coupons P) (reducedW coupons P)) u.couponId
              ≤ sumCounts (dpItems coupons P) u.couponId := sumCounts_taken_le _ _ _
            _ = c.count := by
                rw [← hid']
                exact sumCounts_flatMap_self (gcdFactor coupons P) (validCoupons coupons P)
                  (validCoupons_ids_nodup P hnd) hcv

/-- C7 counterexample: three coupons SHARING the id "a", each with
count 1; the optimizer's reconstruction aggregates two taken units
under the one id, exceeding every bearer's count. -/
theorem claim7_counterexample :
    ¬ (∀ u ∈ (calculateOptimization
          [⟨"a", 40, 10, 1⟩, ⟨"a", 50, 10, 1⟩, ⟨"a", 90, 1, 1⟩] 100).solution,
        ∀ c ∈ ([⟨"a", 40, 10, 1⟩, ⟨"a", 50, 10, 1⟩, ⟨"a", 90, 1, 1⟩] : List Coupon),
          c.id = u.couponId → u.count ≤ c.count) := by
  with_unfolding_all decide

theorem claim7_witness :
    (∀ c ∈ ([⟨"c1", 50, 10, 1⟩, ⟨"c2", 60, 15, 1⟩] : List Coupon), 0 < c.count) ∧
      ∀ u ∈ (calculateOptimization [⟨"c1", 50, 10, 1⟩, ⟨"c2", 60, 15, 1⟩] 100).solution,
        1 ≤ u.count ∧ ∀ c ∈ ([⟨"c1", 50, 10, 1⟩, ⟨"c2", 60, 15, 1⟩] : List Coupon),
          c.id = u.couponId → u.count ≤ c.count :=
  ⟨by decide, claim7_usage_bounds _ _ (by decide) (by decide)⟩

/-- C10: with pairwise-distinct input ids, the solution has at most one
entry per coupon id, every entry's id is the id of some input coupon,
and every entry's count is at least 1. -/
theorem claim10_solution_wellformed (coupons : List Coupon) (P : ℚ)
    (hnd : (coupons.map Coupon.id).Nodup) :
    ((calculateOptimization coupons P).solution.map CouponUsage.couponId).Nodup ∧
      ∀ u ∈ (calculateOptimization coupons P).solution,
        (∃ c ∈ coupons, c.id = u.couponId) ∧ 1 ≤ u.count := by
  by_cases h1 : coupons = [] ∨ P ≤ 0
  · rw [calc_empty h1]
    exact ⟨List.nodup_nil, by intro u hu; simp at hu⟩
  · by_cases h2 : totalPossibleCost coupons P ≤ wLimit P
    · rw [calc_trivial h1 h2]
      constructor
      · show ((((validCoupons coupons P).map fun c =>
            ({ couponId := c.id, count := c.count } : CouponUsage)).map
              CouponUsage.couponId)).Nodup
        rw [List.map_map]
        exact validCoupons_ids_nodup P hnd
      · intro u hu
        have hu' : u ∈ (validCoupons coupons P).map fun c =>
            ({ couponId := c.id, count := c.count } : CouponUsage) := hu
        obtain ⟨c, hcv, rfl⟩ := List.mem_map.mp hu'
        obtain ⟨hcm, hcnt, -, -, -⟩ := mem_validCoupons hcv
        exact ⟨⟨c, hcm, rfl⟩, hcnt⟩
    · by_cases h3 : MAX_SLOTS < reducedW coupons P
      · rw [calc_warning h1 h2 h3]
        exact ⟨List.nodup_nil, by intro u hu; simp at hu⟩
      · rw [calc_dp h1 h2 h3]
        constructor
        · rw [dpResult_solution_eq, List.map_map]
          exact nodup_keysOf_foldl_addUsage _ [] (by simp [keysOf])
        · intro u hu
          obtain ⟨hval, it, hit, hid⟩ := dp_entry_facts hu
          obtain ⟨c, hcv, q, hq, rfl⟩ := mem_dpItems (mem_takenItems hit)
          have hid' : c.id = u.couponId := hid
          have hq1 : 0 < q := expandAux_pos c.count 0 q hq
          have h4 : q ≤ sumCounts (takenItems (dpItems coupons P) (reducedW coupons P))
              u.couponId := realCount_le_sumCounts hit hid
          refine ⟨⟨c, (mem_validCoupons hcv).1, hid'⟩, ?_⟩
          rw [hval]
          omega

theorem claim10_witness :
    ((calculateOptimization [⟨"c1", 50, 10, 1⟩, ⟨"c2", 60, 15, 1⟩] 100).solution.map
        CouponUsage.couponId).Nodup ∧
      ∀ u ∈ (calculateOptimization [⟨"c1", 50, 10, 1⟩, ⟨"c2", 60, 15, 1⟩] 100).solution,
        (∃ c ∈ ([⟨"c1", 50, 10, 1⟩, ⟨"c2", 60, 15, 1⟩] : List Coupon), c.id = u.couponId) ∧
          1 ≤ u.count :=
  claim10_solution_wellformed _ _ (by decide)

end DiscountOptimizer
